import Mathlib

/-!
Verification of the PIL.IA geometry-service core against its specification.

The Python sources under geometry-service/ are shallowly embedded here:
floats become exact rationals, Python lists become `List`, Python dicts
keyed by integers become association lists whose failing lookup is an
explicit `PyErr.keyError`, and functions that can raise return `Except`.
A comparison `sqrt d ≤ t` on nonnegative `d` is embedded as
`0 ≤ t ∧ d ≤ t ^ 2`, avoiding square roots.
-/

unseal Rat.add Rat.mul Rat.sub Rat.inv

namespace PILIA

/-- Python exceptions that the embedded code can raise. -/
inductive PyErr where
  | keyError (k : ℕ)
  | attributeError (msg : String)
deriving DecidableEq

/-- Truncation toward zero, the semantics of Python `int(q)` on a float. -/
def pytrunc (q : ℚ) : ℤ :=
  if q < 0 then -(Int.floor (-q)) else Int.floor q

/-- Round-half-even at integer precision, the semantics of Python `round`. -/
def rndHE (q : ℚ) : ℤ :=
  if q - (Int.floor q : ℚ) < 1/2 then Int.floor q
  else if 1/2 < q - (Int.floor q : ℚ) then Int.floor q + 1
  else if Even (Int.floor q) then Int.floor q else Int.floor q + 1

/-- Python `round(q, n)` for `n` decimal places. -/
def pyround (q : ℚ) (n : ℕ) : ℚ :=
  (rndHE (q * 10 ^ n)) / (10 ^ n)

/-- Embedding of the comparison `math.sqrt d2 ≤ t` for a nonnegative `d2`. -/
def sqrtLe (d2 t : ℚ) : Bool :=
  decide (0 ≤ t) && decide (d2 ≤ t ^ 2)

/-- A 2D point with exact rational coordinates. -/
structure Pt where
  x : ℚ
  y : ℚ
deriving DecidableEq

/-- Squared euclidean distance between two points. -/
def distSq (p q : Pt) : ℚ :=
  (p.x - q.x) ^ 2 + (p.y - q.y) ^ 2

/-- A line segment record: the common shape of the parser, cleanup and
region-extractor `Segment` dataclasses (`start`, `end`, `layer`,
`entity_type`); the `end` field is named `stop` because `end` is reserved. -/
structure Seg where
  start : Pt
  stop : Pt
  layer : String
  etype : String
deriving DecidableEq

/-- A text block as extracted by the DXF parser (`text`, `position`,
`layer`, `height`). -/
structure TextB where
  text : String
  pos : Pt
  layer : String
  height : ℚ
deriving DecidableEq

/-- Stable insertion of `x` into `l`, placing `x` after every element `y`
with `keep y x = true`; used to embed Python's stable `list.sort`. -/
def insertStable (keep : α → α → Bool) (x : α) : List α → List α
  | [] => [x]
  | y :: ys => if keep y x then y :: insertStable keep x ys else x :: y :: ys

/-- Stable sort: elements are inserted left to right, each placed after
all already-placed elements `y` with `keep y x = true`. -/
def sortStable (keep : α → α → Bool) (l : List α) : List α :=
  l.foldl (fun acc x => insertStable keep x acc) []

/-- Boolean substring test, embedding Python's `in` on strings. -/
def substrB (needle hay : String) : Bool :=
  decide (List.IsInfix needle.toList hay.toList)

/-- Python `str.lower()` for the ASCII inputs considered. -/
def lowerStr (s : String) : String := String.mk (s.toList.map Char.toLower)

/-! ### DXF parser: block explosion (core/dxf_parser.py)

`explode_block` is embedded over an abstract block table.  A block entry is
a list of entities; a primitive entity is represented by the segment list
that `extract_line_segments` would produce for it in block-local
coordinates. -/

/-- The data of an `Insert` entity that `explode_block` reads:
`dxf.name`, `dxf.insert`, `dxf.xscale`, `dxf.yscale`, `dxf.rotation`
(degrees).  The rotation field is carried because the DXF file has it,
mirroring that the source reads only name, insert, xscale and yscale. -/
structure InsertData where
  name : String
  insert : Pt
  xscale : ℚ
  yscale : ℚ
  rotation : ℚ
deriving DecidableEq

/-- An entity inside a block definition. -/
inductive BEntity where
  | prim (segs : List Seg)
  | btext (t : TextB)
  | insertE (ins : InsertData)
deriving DecidableEq

/-- A DXF document's block table: block name to entity list. -/
def Doc := List (String × List BEntity)

/-- Embeds `doc.blocks.get(name)`. -/
def lookupBlock (doc : Doc) (name : String) : Option (List BEntity) :=
  (doc.find? (fun b => b.1 = name)).map (fun b => b.2)

/-- The per-segment transform applied inside `explode_block`
(dxf_parser.py lines 343-347): scale then translate, on each coordinate
independently.  No rotation term appears, mirroring the source. -/
def txSeg (ins : InsertData) (s : Seg) : Seg :=
  { s with
    start := ⟨s.start.x * ins.xscale + ins.insert.x, s.start.y * ins.yscale + ins.insert.y⟩
    stop := ⟨s.stop.x * ins.xscale + ins.insert.x, s.stop.y * ins.yscale + ins.insert.y⟩ }

/-- The transform applied to texts inside `explode_block` (lines 352-353). -/
def txText (ins : InsertData) (t : TextB) : TextB :=
  { t with pos := ⟨t.pos.x * ins.xscale + ins.insert.x, t.pos.y * ins.yscale + ins.insert.y⟩ }

/-- Embedding of `explode_block` (dxf_parser.py lines 313-358).  The fuel
argument only feeds Lean's termination; with `fuel ≥ maxDepth + 2 - depth`
the `depth > maxDepth` guard always fires first, as in the source.
Sub-results of nested inserts are appended untransformed, exactly as in
the source loop. -/
def explodeF (doc : Doc) (maxDepth : ℕ) : ℕ → InsertData → ℕ → (List Seg × List TextB)
  | 0, _, _ => ([], [])
  | fuel + 1, ins, depth =>
    if depth > maxDepth then ([], [])
    else
      match lookupBlock doc ins.name with
      | none => ([], [])
      | some ents =>
        ents.foldl (fun acc ent =>
          match ent with
          | .insertE i =>
            let r := explodeF doc maxDepth fuel i (depth + 1)
            (acc.1 ++ r.1, acc.2 ++ r.2)
          | .prim segs => (acc.1 ++ segs.map (txSeg ins), acc.2)
          | .btext t => (acc.1, acc.2 ++ [txText ins t])) ([], [])

/-- `explode_block` with its default arguments (`depth=0`, `max_depth=10`). -/
def explode_block (doc : Doc) (ins : InsertData) : List Seg × List TextB :=
  explodeF doc 10 12 ins 0

/-- The document of qa/test_dxf_rotation.py::test_rotation: a block
TEST_BLOCK holding a line from (0,0) to (10,0). -/
def rotTestDoc : Doc :=
  [("TEST_BLOCK", [.prim [⟨⟨0, 0⟩, ⟨10, 0⟩, "0", "LINE"⟩]])]

/-- The insert of test_rotation: TEST_BLOCK at (20,0), rotation 90°. -/
def rotTestIns : InsertData := ⟨"TEST_BLOCK", ⟨20, 0⟩, 1, 1, 90⟩

/-- The document of test_nested_block_rotation: OUTER holds an insert of
INNER at (0,5); INNER holds a line from (0,0) to (10,0). -/
def nestTestDoc : Doc :=
  [("INNER", [.prim [⟨⟨0, 0⟩, ⟨10, 0⟩, "0", "LINE"⟩]]),
   ("OUTER", [.insertE ⟨"INNER", ⟨0, 5⟩, 1, 1, 0⟩])]

/-- The model-space insert of test_nested_block_rotation: OUTER at (100,0). -/
def nestTestIns : InsertData := ⟨"OUTER", ⟨100, 0⟩, 1, 1, 0⟩

/-! ### Spatial index (core/spatial_index.py) -/

/-- The interface of a shapely polygon that `SpatialIndex` consumes:
validity and emptiness flags, exact area, strict point containment, and
the envelope test that `STRtree.query` performs. -/
structure GeomObj where
  isValid : Bool
  isEmpty : Bool
  area : ℚ
  containsPt : ℚ → ℚ → Bool
  envContainsPt : ℚ → ℚ → Bool

/-- The state `SpatialIndex.__init__` builds: the `valid_polys` list (which
the source appends each valid polygon to twice) and the `metadata` dict,
keyed by `len(valid_polys) - 1` at insertion time. -/
structure SpatialIndexSt where
  geometries : List GeomObj
  metadata : List (ℕ × String × String)

/-- Embedding of `SpatialIndex.__init__` (spatial_index.py lines 25-45),
including the duplicated `valid_polys.append(poly)` of the source. -/
def buildIndex (polys : List (GeomObj × String × String)) : SpatialIndexSt :=
  polys.foldl (fun st p =>
    if p.1.isValid && !p.1.isEmpty then
      let gs := st.geometries ++ [p.1, p.1]
      { geometries := gs, metadata := st.metadata ++ [(gs.length - 1, p.2.1, p.2.2)] }
    else st) ⟨[], []⟩

/-- Dict lookup `self.metadata[idx]`: raises `KeyError` on a missing key. -/
def metaLookup (m : List (ℕ × String × String)) (k : ℕ) : Except PyErr (String × String) :=
  match m.find? (fun e => e.1 = k) with
  | some e => .ok e.2
  | none => .error (.keyError k)

/-- One match record collected by `find_zone` before sorting. -/
structure ZoneMatch where
  layer : String
  handle : String
  area : ℚ

/-- The containment loop of `find_zone` (lines 60-70): for each candidate
index, if the polygon strictly contains the point, look up its metadata
(which can raise `KeyError`). -/
def collectMatches (st : SpatialIndexSt) (px py : ℚ) :
    List ℕ → Except PyErr (List ZoneMatch)
  | [] => .ok []
  | i :: rest =>
    match st.geometries.get? i with
    | none => collectMatches st px py rest
    | some poly =>
      if poly.containsPt px py then
        match metaLookup st.metadata i with
        | .error e => .error e
        | .ok lh => do
          let tail ← collectMatches st px py rest
          return ⟨lh.1, lh.2, poly.area⟩ :: tail
      else collectMatches st px py rest

/-- The zone dictionary `find_zone` returns (its `name` field is the
constant "Unknown" and is dropped here; note the source omits `handle`). -/
structure ZoneD where
  layer : String
  area : ℚ
deriving DecidableEq

/-- Embedding of `SpatialIndex.find_zone` (spatial_index.py lines 47-85).
`tree.query` returns the indices whose envelope contains the point, in
tree order (embedded as ascending index order); the matches are then
sorted by ascending area and the smallest is returned. -/
def findZone (st : SpatialIndexSt) (px py : ℚ) : Except PyErr (Option ZoneD) :=
  if st.geometries.isEmpty then .ok none
  else
    let cands := (List.range st.geometries.length).filter (fun i =>
      match st.geometries.get? i with
      | some g => g.envContainsPt px py
      | none => false)
    match collectMatches st px py cands with
    | .error e => .error e
    | .ok ms =>
      if ms.isEmpty then .ok none
      else
        let sorted := sortStable (fun a b => decide (a.area ≤ b.area)) ms
        match sorted with
        | [] => .ok none
        | best :: _ => .ok (some ⟨best.layer, best.area⟩)

/-- An axis-aligned rectangle as a concrete `GeomObj`: strict interior
containment, closed-envelope test, exact area. -/
def rectGeom (x0 y0 x1 y1 : ℚ) : GeomObj where
  isValid := true
  isEmpty := false
  area := (x1 - x0) * (y1 - y0)
  containsPt := fun px py => decide (x0 < px) && decide (px < x1) && decide (y0 < py) && decide (py < y1)
  envContainsPt := fun px py => decide (x0 ≤ px) && decide (px ≤ x1) && decide (y0 ≤ py) && decide (py ≤ y1)

/-- The unit test geometry for C2: one valid 10×10 square. -/
def sq10 : GeomObj := rectGeom 0 0 10 10

/-! ### BOQ matcher scoring (core/text_associator.py lines 330-343)

The candidate loop of `associate_text_to_regions` is embedded over the
(label, region) candidates that survived the spatial strategies; each
candidate carries the text score, the spatial score its strategy fixed,
and the matched region's area. -/

/-- A (label, region) candidate considered by the BOQ matcher. -/
structure Cand where
  textScore : ℚ
  spatialScore : ℚ
  area : ℚ
deriving DecidableEq

/-- The combined score of text_associator.py lines 331-339:
`text_score * 0.6 + spatial_score * 0.4`, plus `0.2` when `expected_qty`
is truthy, positive and `region.area / expected_qty ∈ [0.8, 1.2]`. -/
def combinedScore (expected : Option ℚ) (c : Cand) : ℚ :=
  match expected with
  | some e =>
    if e ≠ 0 ∧ 0 < e then
      if 8/10 ≤ c.area / e ∧ c.area / e ≤ 12/10 then
        c.textScore * (6/10) + c.spatialScore * (4/10) + 2/10
      else c.textScore * (6/10) + c.spatialScore * (4/10)
    else c.textScore * (6/10) + c.spatialScore * (4/10)
  | none => c.textScore * (6/10) + c.spatialScore * (4/10)

/-- One step of the best-candidate selection: a candidate replaces the
running best exactly when its combined score strictly exceeds it. -/
def bmStep (expected : Option ℚ) (acc : Option Cand × ℚ) (c : Cand) : Option Cand × ℚ :=
  if acc.2 < combinedScore expected c then (some c, combinedScore expected c) else acc

/-- The best-candidate selection of lines 341-343: starting from
`best_match = None`, `best_score = 0.0`. -/
def bestMatch (expected : Option ℚ) (cands : List Cand) : Option Cand × ℚ :=
  cands.foldl (bmStep expected) (none, 0)

/-! ### Sanity checks and confidence scorer (qa/sanity_checks.py,
qa/confidence_scorer.py) -/

/-- Severity levels of sanity issues. -/
inductive Severity where
  | info
  | warning
  | error
deriving DecidableEq

/-- The `.value` string of a `SeverityLevel` member. -/
def severityValue : Severity → String
  | .info => "info"
  | .warning => "warning"
  | .error => "error"

/-- A `SanityResult`: the `passed` flag plus the issue severities (issue
messages are irrelevant to the scorer and dropped). -/
structure SanityResultE where
  passed : Bool
  issues : List Severity
deriving DecidableEq

/-- The tail of `run_sanity_checks` (sanity_checks.py lines 244-250):
`passed = not any(issue is an error)`. -/
def sanityResultOf (issues : List Severity) : SanityResultE :=
  ⟨!(issues.any (fun i => i = Severity.error)), issues⟩

/-- The five confidence factors, already extracted (the claim concerns the
combination, penalty and clamping of lines 129-147). -/
structure Factors where
  text_match : ℚ
  spatial_match : ℚ
  geometry_quality : ℚ
  expected_match : ℚ
  source_reliability : ℚ
deriving DecidableEq

/-- The weighted sum of confidence_scorer.py lines 130-136. -/
def weightedSum (f : Factors) : ℚ :=
  f.text_match * (20/100) + f.spatial_match * (25/100) +
  f.geometry_quality * (20/100) + f.expected_match * (25/100) +
  f.source_reliability * (10/100)

/-- Clamp to the unit interval: `max(0, min(1, score))`. -/
def clamp01 (q : ℚ) : ℚ := max 0 (min 1 q)

/-- Embedding of `compute_confidence` (confidence_scorer.py lines 95-147)
after factor extraction: weighted sum, `× 0.5` when the sanity result did
not pass, `× (1 - warning_count * 0.1)` when it passed with at least one
warning among its issues, then `round(max(0, min(1, score)), 3)`. -/
def computeConfidence (f : Factors) (sanity : Option SanityResultE) : ℚ :=
  let score := weightedSum f
  let score :=
    match sanity with
    | some sr =>
      if !sr.passed then score * (1/2)
      else if !sr.issues.isEmpty then
        let warningCount := (sr.issues.filter (fun i => severityValue i = "warning")).length
        if warningCount > 0 then score * (1 - (warningCount : ℚ) * (1/10)) else score
      else score
    | none => score
  pyround (clamp01 score) 3

/-- Modelled from the claim: the penalty rule the specification states,
`× 0.5` on a sanity error and `× 0.9` for each warning otherwise, with
the same clamping and rounding. -/
def claimConfidence (f : Factors) (sanity : Option SanityResultE) : ℚ :=
  let score := weightedSum f
  let score :=
    match sanity with
    | some sr =>
      if sr.issues.any (fun i => i = Severity.error) then score * (1/2)
      else score * ((9/10) ^ (sr.issues.filter (fun i => i = Severity.warning)).length)
    | none => score
  pyround (clamp01 score) 3

/-! ### Region extraction filters (core/region_extractor.py,
core/multi_resolution_extractor.py)

The geometry library calls (`unary_union`, `polygonize`, `buffer`) are the
embedding boundary: the extractors are embedded as functions of the
candidate polygon list those calls produce.  A candidate carries the
observable attributes the filters read. -/

/-- A candidate produced by polygonize/buffer: whether it is a `Polygon`
instance, its validity flag and its exact area. -/
structure PolyCand where
  isPolygon : Bool
  isValid : Bool
  area : ℚ
deriving DecidableEq

/-- A region record as kept by the extractors (the fields the claims
read). -/
structure RegionR where
  rid : String
  area : ℚ
  isValid : Bool
  resolution : String
deriving DecidableEq

/-- The filter of `extract_regions_shapely` (region_extractor.py lines
307-320): keep valid polygons of area `> 0.01`. -/
def shapelyFilter (polys : List PolyCand) : List RegionR :=
  (polys.filter (fun p => p.isValid && decide (p.area > 1/100))).map
    (fun p => ⟨"", p.area, p.isValid, ""⟩)

/-- `segments_to_linestrings` (lines 62-71): one line string per segment
whose endpoints differ in `x` or `y`; only the count matters downstream. -/
def segmentsToLinestrings (segs : List Seg) : List (Pt × Pt) :=
  (segs.filter (fun s => !(decide (s.start.x = s.stop.x) && decide (s.start.y = s.stop.y)))).map
    (fun s => (s.start, s.stop))

/-- One pass of `_extract_at_resolution`
(multi_resolution_extractor.py lines 109-192) over the polygon candidates
the buffer/polygonize step produced: skip non-polygons and invalid
polygons, skip `area < min_area`, apply the per-resolution band, and emit
a record whose area is `round(area, 4)`. -/
def extractAtResolution (cands : List PolyCand) (resolution layer : String)
    (minArea coarseThreshold mediumThreshold : ℚ) : List RegionR :=
  (List.range cands.length).foldl (fun acc i =>
    match cands.get? i with
    | none => acc
    | some p =>
      if !p.isPolygon || !p.isValid then acc
      else if p.area < minArea then acc
      else if resolution = "coarse" ∧ p.area < coarseThreshold then acc
      else if resolution = "medium" ∧ (p.area < mediumThreshold ∨ coarseThreshold ≤ p.area) then acc
      else if resolution = "fine" ∧ mediumThreshold ≤ p.area then acc
      else acc ++ [⟨layer ++ "_" ++ resolution ++ "_" ++ toString i, pyround p.area 4, p.isValid, resolution⟩]) []

/-- The three passes of `extract_multi_resolution` (lines 86-96) with the
constructor defaults: coarse at threshold 10, medium at threshold 1, fine
with min area 0 ("No area threshold for fine"). -/
def extractMultiResolution (cands : List PolyCand) (layer : String) :
    List RegionR × List RegionR × List RegionR :=
  (extractAtResolution cands "coarse" layer 10 10 1,
   extractAtResolution cands "medium" layer 1 10 1,
   extractAtResolution cands "fine" layer 0 10 1)

/-- The area filter and descending-area sort of `extract_regions`
(region_extractor.py lines 495-518), over the `extract_regions_shapely`
output. -/
def extractRegionsFilter (regions : List RegionR) (minArea maxArea : ℚ) : List RegionR :=
  let filtered := regions.filter (fun r => decide (minArea ≤ r.area) && decide (r.area ≤ maxArea))
  sortStable (fun a b => decide (b.area ≤ a.area)) filtered

/-! ### Vertex snapping (core/geometry_cleanup.py lines 52-133) -/

/-- The `all_points` list of `snap_vertices`: start then end of each
segment, in segment order. -/
def allPoints : List Seg → List Pt
  | [] => []
  | s :: rest => s.start :: s.stop :: allPoints rest

/-- The grid cell of a point for cell size `gs`, via Python `int(x / gs)`. -/
def cellOf (gs : ℚ) (p : Pt) : ℤ × ℤ :=
  (pytrunc (p.x / gs), pytrunc (p.y / gs))

/-- Membership of `q`'s cell in the 3×3 neighborhood of `p`'s cell. -/
def cellNear (gs : ℚ) (p q : Pt) : Bool :=
  decide (((cellOf gs p).1 - (cellOf gs q).1).natAbs ≤ 1) &&
  decide (((cellOf gs p).2 - (cellOf gs q).2).natAbs ≤ 1)

/-- The clustering state of `snap_vertices`: `point_to_cluster` as a
positional list over point indices, and `cluster_centroids` as a list
indexed by cluster id (ids are allocated consecutively). -/
structure ClusterSt where
  p2c : List (Option ℕ)
  cents : List Pt
deriving DecidableEq

/-- One iteration of the clustering loop of `snap_vertices` (lines
85-109): skip already-clustered points; otherwise gather all points of
the 3×3 cell neighborhood within `tolerance`, assign them all to a fresh
cluster id (overwriting any earlier assignment, as the source dict write
does) and record the cluster centroid.  Faithful for `tolerance ≥ 0`
(then the gathered set is nonempty, as in any run the source completes). -/
def snapStep (pts : List Pt) (tol gs : ℚ) (st : ClusterSt) (i : ℕ) : ClusterSt :=
  match st.p2c.get? i with
  | some (some _) => st
  | _ =>
    match pts.get? i with
    | none => st
    | some pi =>
      let nearby := (List.range pts.length).filter (fun j =>
        match pts.get? j with
        | none => false
        | some pj => cellNear gs pi pj && sqrtLe (distSq pi pj) tol)
      let m : ℚ := nearby.length
      let cx := (nearby.foldl (fun s j => s + (((pts.get? j).map Pt.x).getD 0)) 0) / m
      let cy := (nearby.foldl (fun s j => s + (((pts.get? j).map Pt.y).getD 0)) 0) / m
      let cid := st.cents.length
      ⟨nearby.foldl (fun l j => l.set j (some cid)) st.p2c, st.cents ++ [⟨cx, cy⟩]⟩

/-- The full clustering pass over all point indices. -/
def snapClusters (pts : List Pt) (tol : ℚ) : ClusterSt :=
  (List.range pts.length).foldl (snapStep pts tol (tol * 2))
    ⟨List.replicate pts.length none, []⟩

/-- Invariant of the clustering state: the assignment list keeps its
length, and every assigned point maps to a cluster whose recorded
centroid is that point's own coordinates (used for the conditional
idempotence analysis of the snap pass). -/
def SnapInv (pts : List Pt) (st : ClusterSt) : Prop :=
  st.p2c.length = pts.length ∧
  ∀ i c, st.p2c.get? i = some (some c) →
    ∃ p, pts.get? i = some p ∧ st.cents.get? c = some p

/-- Embedding of `snap_vertices` (geometry_cleanup.py lines 52-133): after
clustering, segment `k` reads the clusters of points `2k` and `2k+1`; it
is kept, with both endpoints replaced by their cluster centroids, exactly
when the two clusters differ. -/
def snapVertices (segs : List Seg) (tol : ℚ) : List Seg :=
  if segs.isEmpty then segs
  else
    let pts := allPoints segs
    let st := snapClusters pts tol
    (List.range segs.length).foldl (fun acc k =>
      match segs.get? k with
      | none => acc
      | some seg =>
        let c1 := ((st.p2c.get? (2 * k)).getD none).getD 0
        let c2 := ((st.p2c.get? (2 * k + 1)).getD none).getD 0
        if c1 ≠ c2 then
          acc ++ [{ seg with
            start := (st.cents.get? c1).getD ⟨0, 0⟩
            stop := (st.cents.get? c2).getD ⟨0, 0⟩ }]
        else acc) []

/-- The C8 counterexample input: two collinear segments whose three
distinct endpoints are chained 9 mm apart, below the 1 cm tolerance. -/
def snapCex : List Seg :=
  [⟨⟨0, 0⟩, ⟨9/1000, 0⟩, "L", "LINE"⟩,
   ⟨⟨9/1000, 0⟩, ⟨18/1000, 0⟩, "L", "LINE"⟩]

/-! ### Gap closing (core/region_extractor.py lines 76-192) -/

/-- Rounding to 5 decimals, the `Point.__eq__`/`__hash__` key of
region_extractor.py. -/
def r5 (q : ℚ) : ℚ := pyround q 5

/-- The rounded key of a point. -/
def rkey (p : Pt) : ℚ × ℚ := (r5 p.x, r5 p.y)

/-- Strict lexicographic order on coordinate pairs (Python tuple `<`). -/
def lexLt (a b : ℚ × ℚ) : Bool :=
  decide (a.1 < b.1) || (decide (a.1 = b.1) && decide (a.2 < b.2))

/-- Python `tuple(sorted((a, b)))` on two coordinate tuples. -/
def sortedPair (a b : ℚ × ℚ) : (ℚ × ℚ) × (ℚ × ℚ) :=
  if lexLt b a then (b, a) else (a, b)

/-- Insertion into the `endpoints` set: points compare by their round-5
key; insertion order is kept (the embedding fixes `list(endpoints)` to
insertion order). -/
def addEndpoint (l : List Pt) (p : Pt) : List Pt :=
  if l.any (fun q => rkey q = rkey p) then l else l ++ [p]

/-- The `endpoints` list of `force_close_polygons`. -/
def fcEndpoints (segs : List Seg) : List Pt :=
  segs.foldl (fun l s => addEndpoint (addEndpoint l s.start) s.stop) []

/-- The `existing_pairs` set: sorted pairs of round-5 endpoint tuples of
every input segment (membership-equivalent list form). -/
def existingPairs (segs : List Seg) : List ((ℚ × ℚ) × (ℚ × ℚ)) :=
  segs.map (fun s => sortedPair (rkey s.start) (rkey s.stop))

/-- The `FORCE_CLOSE_LAYERS` table, keys lowercased as the source does. -/
def forceCloseLayers : List (String × ℚ) :=
  [("fa_0.20", 2/10), ("a-arq-cielo falso", 2/10), ("a-arq-tabiques", 1/10), ("mb-elev 2", 2/10)]

/-- The per-segment tolerance (lines 107-113): start from the call
tolerance, raise to each table entry whose key occurs in the lowercased
layer name. -/
def segTolOf (tolerance : ℚ) (layer : String) : ℚ :=
  forceCloseLayers.foldl (fun t kv => if substrB kv.1 (lowerStr layer) then max t kv.2 else t) tolerance

/-- The `layer_map` dict (Point, keyed by round-5 tuple, to the max
tolerance seen). -/
def layerMapOf (segs : List Seg) (tolerance : ℚ) : List ((ℚ × ℚ) × ℚ) :=
  segs.foldl (fun m s =>
    let t := segTolOf tolerance s.layer
    let upd := fun (m : List ((ℚ × ℚ) × ℚ)) (p : Pt) =>
      match m.find? (fun e => e.1 = rkey p) with
      | some e => m.map (fun e2 => if e2.1 = rkey p then (e2.1, max e.2 t) else e2)
      | none => m ++ [(rkey p, max 0 t)]
    upd (upd m s.start) s.stop) []

/-- `layer_map.get(p, tolerance)`. -/
def lmGet (m : List ((ℚ × ℚ) × ℚ)) (p : Pt) (dflt : ℚ) : ℚ :=
  (((m.find? (fun e => e.1 = rkey p)).map (fun e => e.2))).getD dflt

/-- `max(layer_map.values())` with the source's fallback to `tolerance`. -/
def maxTolOf (m : List ((ℚ × ℚ) × ℚ)) (tolerance : ℚ) : ℚ :=
  match m with
  | [] => tolerance
  | e :: rest => rest.foldl (fun t e2 => max t e2.2) e.2

/-- The `valid_neighbors` list gathered for `p1` (lines 144-169): grid
candidates are the endpoints whose cell is in the 3×3 neighborhood of
`p1`'s cell; a neighbor passes if it differs from `p1` under round-5
equality, survives the per-axis quick check against `p1`'s tolerance, has
`0 < dist ≤ max(p1_tol, p2_tol)` and the rounded edge does not already
exist.  Pairs are kept as (squared distance, point). -/
def validNeighbors (points : List Pt) (lm : List ((ℚ × ℚ) × ℚ))
    (pairs : List ((ℚ × ℚ) × (ℚ × ℚ))) (cellSize tolerance : ℚ) (p1 : Pt) : List (ℚ × Pt) :=
  let p1t := lmGet lm p1 tolerance
  ((points.filter (fun p2 => cellNear cellSize p1 p2)).filter (fun p2 =>
    if rkey p1 = rkey p2 then false
    else if |p1.x - p2.x| > p1t ∨ |p1.y - p2.y| > p1t then false
    else
      let eff := max p1t (lmGet lm p2 tolerance)
      if 0 < distSq p1 p2 ∧ sqrtLe (distSq p1 p2) eff then
        !(pairs.contains (sortedPair (rkey p1) (rkey p2)))
      else false)).map (fun p2 => (distSq p1 p2, p2))

/-- Embedding of `force_close_polygons` (region_extractor.py lines
83-192).  For each endpoint in order, its valid neighbors are sorted by
distance (stably, by squared distance), the two closest are taken, and a
bridge segment tagged layer "AUTO_CLOSE", entity_type "BRIDGE" is added
for each pair not already processed (by exact-coordinate sorted pair). -/
def fcInnerStep (p1 : Pt) (st2 : List ((ℚ × ℚ) × (ℚ × ℚ)) × List Seg) (dp : ℚ × Pt) :
    List ((ℚ × ℚ) × (ℚ × ℚ)) × List Seg :=
  let pid := sortedPair (p1.x, p1.y) (dp.2.x, dp.2.y)
  if st2.1.contains pid then st2
  else (st2.1 ++ [pid], st2.2 ++ [⟨p1, dp.2, "AUTO_CLOSE", "BRIDGE"⟩])

/-- One outer step of `force_close_polygons`: sort `p1`'s valid neighbors
by distance and process the two closest. -/
def fcOuterStep (points : List Pt) (lm : List ((ℚ × ℚ) × ℚ))
    (pairs : List ((ℚ × ℚ) × (ℚ × ℚ))) (cellSize tolerance : ℚ)
    (st : List ((ℚ × ℚ) × (ℚ × ℚ)) × List Seg) (p1 : Pt) :
    List ((ℚ × ℚ) × (ℚ × ℚ)) × List Seg :=
  let vns := sortStable (fun a b => decide (a.1 ≤ b.1))
    (validNeighbors points lm pairs cellSize tolerance p1)
  (vns.take 2).foldl (fcInnerStep p1) st

def forceClosePolygons (segs : List Seg) (tolerance : ℚ) : List Seg :=
  if segs.isEmpty then []
  else
    let pairs := existingPairs segs
    let lm := layerMapOf segs tolerance
    let cellSize := maxTolOf lm tolerance
    let points := fcEndpoints segs
    let result := points.foldl (fcOuterStep points lm pairs cellSize tolerance) ([], [])
    segs ++ result.2

/-- Degree of a point among the segment endpoints at 4-decimal rounding,
the claim's notion of a dangling endpoint (degree 1). -/
def degree4 (segs : List Seg) (p : Pt) : ℕ :=
  ((allPoints segs).filter (fun q =>
    pyround q.x 4 = pyround p.x 4 ∧ pyround q.y 4 = pyround p.y 4)).length

/-- The C5 counterexample input: endpoint (0,0) has degree 2 (it joins
two segments) and a third segment ends 3 cm away. -/
def fcCex : List Seg :=
  [⟨⟨0, 0⟩, ⟨1, 0⟩, "W", "LINE"⟩,
   ⟨⟨0, 0⟩, ⟨0, 1⟩, "W", "LINE"⟩,
   ⟨⟨3/100, 0⟩, ⟨2, 0⟩, "W", "LINE"⟩]

/-- The bridge that `force_close_polygons` adds on `fcCex`. -/
def fcCexBridge : Seg := ⟨⟨0, 0⟩, ⟨3/100, 0⟩, "AUTO_CLOSE", "BRIDGE"⟩

/-! ### difflib.SequenceMatcher (Python stdlib, as used by
core/semantic_matcher.py and core/text_associator.py)

Embedded for sequences shorter than 200 characters, where difflib's
autojunk never marks any character as junk, so the junk branches of the
algorithm are inert and omitted. -/

/-- The `b2j` position list of one character in `b` (ascending). -/
def posList (b : List Char) (c : Char) : List ℕ :=
  (List.range b.length).filter (fun j => b.get? j = some c)

/-- Lookup in a `j2len` association row, defaulting to 0
(`j2len.get(j - 1, 0)`). -/
def j2lenGet (l : List (ℕ × ℕ)) (k : ℕ) : ℕ :=
  (((l.find? (fun e => e.1 = k)).map (fun e => e.2))).getD 0

/-- Equality of two optional characters; in every reachable call both
sides are in range, matching Python's direct indexing. -/
def charEq : Option Char → Option Char → Bool
  | some x, some y => x = y
  | _, _ => false

/-- One row of `find_longest_match`'s dynamic program (difflib): for the
positions `j` of `a[i]` in `b` restricted to `[blo, bhi)`, extend the run
lengths of the previous row and track the best block found so far. -/
def flmRow (prevJ2 : List (ℕ × ℕ)) (i : ℕ) (js : List ℕ)
    (best : ℕ × ℕ × ℕ) : List (ℕ × ℕ) × (ℕ × ℕ × ℕ) :=
  js.foldl (fun acc j =>
    let k := if j = 0 then 1 else j2lenGet prevJ2 (j - 1) + 1
    let best2 := if k > acc.2.2.2 then (i + 1 - k, j + 1 - k, k) else acc.2
    ((j, k) :: acc.1, best2)) ([], best)

/-- Leftward extension of the best block
(`while besti > alo and bestj > blo and a[besti-1] == b[bestj-1]`). -/
def extLeft (a b : List Char) (alo blo : ℕ) : ℕ → ℕ × ℕ × ℕ → ℕ × ℕ × ℕ
  | 0, r => r
  | fuel + 1, (i, j, k) =>
    if alo < i ∧ blo < j ∧ charEq (a.get? (i - 1)) (b.get? (j - 1)) then
      extLeft a b alo blo fuel (i - 1, j - 1, k + 1)
    else (i, j, k)

/-- Rightward extension of the best block
(`while besti+bestsize < ahi and ... and a[besti+bestsize] == b[bestj+bestsize]`). -/
def extRight (a b : List Char) (ahi bhi : ℕ) : ℕ → ℕ × ℕ × ℕ → ℕ × ℕ × ℕ
  | 0, r => r
  | fuel + 1, (i, j, k) =>
    if i + k < ahi ∧ j + k < bhi ∧ charEq (a.get? (i + k)) (b.get? (j + k)) then
      extRight a b ahi bhi fuel (i, j, k + 1)
    else (i, j, k)

/-- `SequenceMatcher.find_longest_match(alo, ahi, blo, bhi)` without junk:
the dynamic program over rows `i ∈ [alo, ahi)`, then both extension
loops. -/
def findLongest (a b : List Char) (alo ahi blo bhi : ℕ) : ℕ × ℕ × ℕ :=
  let scan := (List.range' alo (ahi - alo)).foldl (fun acc i =>
    let js := match a.get? i with
      | none => []
      | some c => (posList b c).filter (fun j => blo ≤ j ∧ j < bhi)
    flmRow acc.1 i js acc.2) ([], (alo, blo, 0))
  extRight a b ahi bhi (ahi + bhi + 1)
    (extLeft a b alo blo (ahi + 1) scan.2)

/-- Total size of all matching blocks (`get_matching_blocks` recursion;
only the summed size feeds the ratio). -/
def totalMatched (a b : List Char) : ℕ → ℕ → ℕ → ℕ → ℕ → ℕ
  | _, _, _, _, 0 => 0
  | alo, ahi, blo, bhi, fuel + 1 =>
    let r := findLongest a b alo ahi blo bhi
    if r.2.2 = 0 then 0
    else
      totalMatched a b alo r.1 blo r.2.1 fuel + r.2.2 +
      totalMatched a b (r.1 + r.2.2) ahi (r.2.1 + r.2.2) bhi fuel

/-- `SequenceMatcher(None, a, b).ratio()`: `2M / (len a + len b)`, and 1.0
when both are empty. -/
def ratioOf (a b : List Char) : ℚ :=
  let total := a.length + b.length
  if total = 0 then 1
  else 2 * (totalMatched a b 0 a.length 0 b.length (total + 1) : ℚ) / (total : ℚ)

/-! ### Semantic matcher (core/semantic_matcher.py) -/

/-- ASCII word character, the `\w` class for the inputs considered. -/
def isWordChar (c : Char) : Bool := c.isAlphanum || c = '_'

/-- Python whitespace (`\s` and `str.split`/`str.strip` default). -/
def isPySpace (c : Char) : Bool :=
  c = ' ' || c = '\t' || c = '\n' || c = '\r' || c = '\x0b' || c = '\x0c'

/-- `str.strip()` on a character list. -/
def stripChars (cs : List Char) : List Char :=
  ((cs.dropWhile isPySpace).reverse.dropWhile isPySpace).reverse

/-- `SemanticMatcher.normalize` (semantic_matcher.py lines 32-36):
lowercase, replace every character that is neither word nor whitespace by
a space, strip. -/
def normalizeSM (s : String) : String :=
  String.mk (stripChars ((lowerStr s).toList.map (fun c =>
    if !(isWordChar c || isPySpace c) then ' ' else c)))

/-- Collapse of whitespace runs to single spaces (`re.sub(r'\s+', ' ')`). -/
def collapseWs : List Char → List Char
  | [] => []
  | c :: rest =>
    let r := collapseWs rest
    if isPySpace c then
      match r with
      | ' ' :: tail => ' ' :: tail
      | _ => ' ' :: r
    else c :: r

/-- `normalize_text` of core/text_associator.py lines 133-139: lowercase,
non-word-non-space to space, collapse whitespace, strip. -/
def normalizeTA (s : String) : String :=
  String.mk (stripChars (collapseWs ((lowerStr s).toList.map (fun c =>
    if !(isWordChar c || isPySpace c) then ' ' else c))))

/-- The hardcoded `SYNONYMS` table of semantic_matcher.py. -/
def synonymsTable : List (String × List String) :=
  [("muro", ["tabique", "murete", "wall", "pantalla", "hormigon"]),
   ("losa", ["radier", "sobrelosa", "slab", "floor", "piso", "pavimento"]),
   ("cielo", ["ceiling", "falso", "volcanita", "yeso"]),
   ("puerta", ["door", "acceso", "porton"]),
   ("ventana", ["window", "vidrio", "cristal"]),
   ("impermeabilizacion", ["membrana", "waterproof", "aislacion"]),
   ("estuco", ["revestimiento", "mortero", "plaster"]),
   ("ceramica", ["porcelanato", "baldoza", "tile"])]

/-- `SemanticMatcher.get_synonyms` (lines 38-43): normalize the term and
return `[key] + syns` of the first row whose key equals the term or whose
synonym list contains it. -/
def getSynonyms (term : String) : List String :=
  let t := normalizeSM term
  match synonymsTable.find? (fun kv => t = kv.1 ∨ t ∈ kv.2) with
  | some kv => kv.1 :: kv.2
  | none => []

/-- Embedding of `SemanticMatcher.match` (semantic_matcher.py lines
48-82): per candidate, exact normalized equality scores 1.0, otherwise a
synonym of the target occurring as a substring of the normalized
candidate scores 0.95, otherwise the sequence ratio is kept when it
reaches the threshold; results are then sorted by descending score
(stable, as `list.sort` is). -/
def smStep (targetNorm : String) (targetSyns : List String) (threshold : ℚ)
    (acc : List (String × ℚ × String)) (cand : String) : List (String × ℚ × String) :=
  let candNorm := normalizeSM cand
  if targetNorm = candNorm then acc ++ [(cand, 1, "exact")]
  else
    match targetSyns.find? (fun syn => substrB syn candNorm) with
    | some _ => acc ++ [(cand, 19/20, "synonym")]
    | none =>
      let score := ratioOf targetNorm.toList candNorm.toList
      if threshold ≤ score then acc ++ [(cand, score, "fuzzy")] else acc

/-- The result list of `SemanticMatcher.match`: the per-candidate loop
followed by the stable descending sort by score. -/
def matchSM (target : String) (candidates : List String) (threshold : ℚ) :
    List (String × ℚ × String) :=
  let targetNorm := normalizeSM target
  sortStable (fun x y => decide (y.2.1 ≤ x.2.1))
    (candidates.foldl (smStep targetNorm (getSynonyms targetNorm) threshold) [])

/-- Helper for `splitWs`: accumulate the current word (reversed). -/
def splitWsGo (cur : List Char) : List Char → List (List Char)
  | [] => if cur.isEmpty then [] else [cur.reverse]
  | c :: rest =>
    if isPySpace c then
      if cur.isEmpty then splitWsGo [] rest else cur.reverse :: splitWsGo [] rest
    else splitWsGo (c :: cur) rest

/-- Python `str.split()`: maximal nonempty non-whitespace runs. -/
def splitWs (cs : List Char) : List (List Char) := splitWsGo [] cs

/-- Modelled from the claim (and from the word-overlap bonus of
`fuzzy_match_score`, text_associator.py lines 156-167): the score the
claim asserts for the fuzzy strategy, namely the sequence ratio of the
two normalized strings plus `|common words| / max(|words1|, |words2|) * 0.3`,
clipped to 1.0. -/
def claimFuzzyScore (t1 t2 : String) : ℚ :=
  let a := normalizeTA t1
  let b := normalizeTA t2
  let r := ratioOf a.toList b.toList
  let w1 := (splitWs a.toList).dedup
  let w2 := (splitWs b.toList).dedup
  let common := (w1.filter (fun w => w ∈ w2)).length
  if common > 0 then
    min 1 (r + (common : ℚ) / ((max w1.length w2.length : ℕ) : ℚ) * (3/10))
  else r

/-! ### Text associator (core/text_associator.py) -/

/-- A text label with its anchor position. -/
structure Label where
  text : String
  pos : Pt
deriving DecidableEq

/-- The fields of a BOQ item record. -/
structure ExcelItemD where
  iid : String
  description : String
  unit : String
  expected_qty : Option ℚ
deriving DecidableEq

/-- How a BOQ item reaches `associate_text_to_regions` at runtime: as a
plain dict (the `/extract` route passes `json.loads` output) or as an
`ExcelItem` dataclass instance (the repository's own tests). -/
inductive ItemRepr where
  | dictR (d : ExcelItemD)
  | dataclassR (d : ExcelItemD)
deriving DecidableEq

/-- The underlying record of either representation. -/
def dataOf : ItemRepr → ExcelItemD
  | .dictR d => d
  | .dataclassR d => d

/-- `item.get('description')` (text_associator.py line 246): method
lookup succeeds on a dict and raises `AttributeError` on a dataclass. -/
def itemGetDescription : ItemRepr → Except PyErr (Option String)
  | .dictR d => .ok (some d.description)
  | .dataclassR _ => .error (.attributeError "ExcelItem object has no attribute get")

/-- `item.description` (line 174, inside `find_matching_labels`):
attribute access succeeds on a dataclass and raises `AttributeError` on a
dict. -/
def itemAttrDescription : ItemRepr → Except PyErr String
  | .dictR _ => .error (.attributeError "dict object has no attribute description")
  | .dataclassR d => .ok d.description

/-- Embedding of `find_matching_labels` (text_associator.py lines
169-211): read `item.description` (which can raise), normalize it, bail
out on an empty normalization, run the semantic matcher over the
non-empty label texts, and map each result text back to every label
index bearing that text, deduplicated by label identity. -/
def findMatchingLabels (item : ItemRepr) (labels : List Label) (threshold : ℚ) :
    Except PyErr (List (ℕ × ℚ)) :=
  match itemAttrDescription item with
  | .error e => .error e
  | .ok desc =>
    if normalizeTA desc = "" then .ok []
    else
      let candTexts := (labels.filter (fun l => l.text ≠ "")).map (fun l => l.text)
      let results := matchSM desc candTexts threshold
      .ok (results.foldl (fun (acc : List (ℕ × ℚ)) r =>
        (List.range labels.length).foldl (fun acc2 li =>
          match labels.get? li with
          | some l =>
            if l.text = r.1 ∧ !(acc2.any (fun e => e.1 = li)) then acc2 ++ [(li, r.2.1)]
            else acc2
          | none => acc2) acc) [])

/-- The surface of a matched region that the match-record construction
reads. -/
structure RegionLike where
  rid : String
  area : ℚ
  perimeter : ℚ
deriving DecidableEq

/-- A produced `Match` record (fields the claims read). -/
structure MatchRec where
  itemId : String
  regionId : Option String
  qty : ℚ
  confidence : ℚ
  reason : String
deriving DecidableEq

/-- Embedding of the item loop of `associate_text_to_regions`
(text_associator.py lines 244-431).  The spatial-strategy cascade (lines
256-328, the SpatialIndex queries of C2) is the embedding boundary and is
passed as `resolve`, giving the region and fixed spatial score a label
resolves to; the quantity computation of lines 349-410 is passed as
`mkQty`.  Both sit beyond the attribute accesses that raise, so no claim
depends on them.  Per item: `item.get('description')` (raises on a
dataclass), the length-3 check, `find_matching_labels` (raises on a
dict), the best-candidate fold with `combinedScore`, and either a region
match or the unmatched record with reason "No spatial match found". -/
def associateTextToRegions (items : List ItemRepr) (labels : List Label) (threshold : ℚ)
    (resolve : ℕ → Option (RegionLike × ℚ)) (mkQty : ExcelItemD → RegionLike → ℚ) :
    Except PyErr (List MatchRec) :=
  items.foldlM (fun (acc : List MatchRec) item => do
    let descOpt ← itemGetDescription item
    match descOpt with
    | none => pure acc
    | some d =>
      if d.length < 3 then pure acc
      else do
        let ml ← findMatchingLabels item labels threshold
        let best := ml.foldl (fun (b : Option (RegionLike × ℕ) × ℚ) ls =>
          match resolve ls.1 with
          | none => b
          | some rs =>
            let comb := combinedScore (dataOf item).expected_qty ⟨ls.2, rs.2, rs.1.area⟩
            if b.2 < comb then (some (rs.1, ls.1), comb) else b) (none, 0)
        match best.1 with
        | some rm =>
          pure (acc ++ [⟨(dataOf item).iid, some rm.1.rid, mkQty (dataOf item) rm.1, best.2, "matched"⟩])
        | none =>
          pure (acc ++ [⟨(dataOf item).iid, none, 0, 0, "No spatial match found"⟩])) []

/-! ### Region extraction pipeline (core/region_extractor.py lines
276-322 and 475-518) -/

/-- Embedding of `extract_regions_shapely`: force-close with tolerance
0.10, convert to line strings, return `[]` when none remain; otherwise
filter the polygons that `unary_union`/`polygonize` produced (the
embedding boundary, passed as `polygonized`). -/
def extractRegionsShapely (segs : List Seg) (polygonized : List PolyCand) : List RegionR :=
  let segs2 := forceClosePolygons segs (1/10)
  let ls := segmentsToLinestrings segs2
  if ls.isEmpty then []
  else shapelyFilter polygonized

/-- Embedding of `extract_regions` with `method="shapely"`: the shapely
extraction followed by the `[min_area, max_area]` filter and the
descending-area sort. -/
def extractRegions (segs : List Seg) (polygonized : List PolyCand)
    (minArea maxArea : ℚ) : List RegionR :=
  extractRegionsFilter (extractRegionsShapely segs polygonized) minArea maxArea

/-! ### Worker task segment flow (core/processing_task.py)

`process_dxf_task` imports `cleanup_geometry` but never calls it: between
`parse_dxf_file` and the response, segments only pass through the layer
whitelist, the 200 000 cap, and two field-for-field record copies
(parser → cleanup dataclass at lines 99-106, cleanup → API model at
lines 298-306).  The embedding below is that flow. -/

/-- The cleanup-module `Segment` copy built at lines 99-106. -/
structure CSeg where
  start : Pt
  stop : Pt
  layer : String
  etype : String
deriving DecidableEq

/-- The API-model `Segment` built at lines 298-306. -/
structure ASeg where
  start : Pt
  stop : Pt
  layer : String
  etype : String
deriving DecidableEq

/-- The architectural layer whitelist of processing_task.py lines 37-52. -/
def whitelistPatterns : List String :=
  ["arq", "mb", "mu", "tab", "pu", "ven", "muro", "wall", "door", "window",
   "partition", "room", "space", "boundary"]

/-- The whitelist check (line 69): any pattern occurs in the lowercased
layer name. -/
def isArchitectural (layer : String) : Bool :=
  whitelistPatterns.any (fun p => substrB p (lowerStr layer))

/-- `MAX_SEGMENTS` (line 54). -/
def maxSegmentsCap : ℕ := 200000

/-- The subsampling of lines 77-91: when over the cap, keep every
`int(len/MAX)`-th segment until the cap is reached. -/
def capSegments (l : List Seg) : List Seg :=
  if l.length > maxSegmentsCap then
    let step := l.length / maxSegmentsCap
    (List.range l.length).foldl (fun acc i =>
      match l.get? i with
      | none => acc
      | some s =>
        if acc.length ≥ maxSegmentsCap then acc
        else if i % step = 0 then acc ++ [s] else acc) []
  else l

/-- Parser segment to cleanup segment (lines 99-106): coordinates, layer
and entity type are copied unchanged. -/
def toClnSeg (s : Seg) : CSeg := ⟨⟨s.start.x, s.start.y⟩, ⟨s.stop.x, s.stop.y⟩, s.layer, s.etype⟩

/-- Cleanup segment to API segment (lines 299-306): copied unchanged. -/
def toApiSeg (c : CSeg) : ASeg := ⟨⟨c.start.x, c.start.y⟩, ⟨c.stop.x, c.stop.y⟩, c.layer, c.etype⟩

/-- The `segments` field of the `ParseDxfResponse` that `process_dxf_task`
returns, as a function of the parser's segment list. -/
def processSegments (parserSegs : List Seg) : List ASeg :=
  let filtered := parserSegs.filter (fun s => isArchitectural s.layer)
  let capped := capSegments filtered
  (capped.map toClnSeg).map toApiSeg

/-! ### Concrete inputs for counterexamples and witnesses -/

/-- C3: a candidate with text score 0.5 and spatial score 0.5. -/
def c3cand : Cand := ⟨1/2, 1/2, 5⟩

/-- C6: all five factors equal to 1, so the weighted sum is exactly 1. -/
def factorsOne : Factors := ⟨1, 1, 1, 1, 1⟩

/-- C4: a valid polygon candidate of area 0.3 m². -/
def finePoly : PolyCand := ⟨true, true, 3/10⟩

/-- C9: the dataclass BOQ item of qa/test_spatial_logic.py whose expected
outcome is the unmatched record. -/
def itemPatio : ItemRepr := .dataclassR ⟨"2", "Pavimento Patio", "m2", none⟩

/-- C9: the same item as the dict the `/extract` route would pass. -/
def itemPatioDict : ItemRepr := .dictR ⟨"2", "Pavimento Patio", "m2", none⟩

/-- C9: the label set of qa/test_spatial_logic.py. -/
def labelsPatio : List Label := [⟨"SALA DE VENTAS", ⟨5, 5⟩⟩, ⟨"PATIO EXTERIOR", ⟨15, 15⟩⟩]

/-- C8 witness input: a single segment whose endpoints are 1 m apart,
far beyond the 1 cm snap tolerance. -/
def snapWitSeg : List Seg := [⟨⟨0, 0⟩, ⟨1, 0⟩, "L", "LINE"⟩]

/-- C4/C10 witness input: one architectural-layer segment. -/
def witSeg : List Seg := [⟨⟨0, 0⟩, ⟨1, 0⟩, "a-arq-muro", "LINE"⟩]

/-! ## Helper lemmas -/

/-- Invariant propagation through `foldl` for a state observed through a
list projection: any element of the final projection was in the initial
one or satisfies `P`, provided each step only adds `P`-elements. -/
theorem foldl_proj_inv {α σ β : Type} (step : σ → α → σ) (proj : σ → List β)
    (P : β → Prop) :
    ∀ (xs : List α), (∀ st, ∀ x ∈ xs, ∀ r ∈ proj (step st x), r ∈ proj st ∨ P r) →
    ∀ st, (∀ r ∈ proj st, P r) → ∀ r ∈ proj (xs.foldl step st), P r := by
  intro xs
  induction xs with
  | nil => intro _ st hst r hr; exact hst r hr
  | cons x rest ih =>
    intro h st hst r hr
    refine ih (fun st2 y hy => h st2 y (List.mem_cons_of_mem x hy)) (step st x) ?_ r hr
    intro r2 hr2
    rcases h st x (List.mem_cons_self x rest) r2 hr2 with h1 | h2
    · exact hst r2 h1
    · exact h2

/-- `insertStable` produces a permutation of consing the element. -/
theorem insertStable_perm {α : Type} (keep : α → α → Bool) (x : α) :
    ∀ l : List α, List.Perm (insertStable keep x l) (x :: l) := by
  intro l
  induction l with
  | nil => simp [insertStable]
  | cons y ys ih =>
    simp only [insertStable]
    by_cases h : keep y x = true
    · rw [if_pos h]
      exact (List.Perm.cons y ih).trans (List.Perm.swap x y ys)
    · rw [if_neg h]

/-- `sortStable` permutes its input. -/
theorem sortStable_perm {α : Type} (keep : α → α → Bool) (l : List α) :
    List.Perm (sortStable keep l) l := by
  suffices h : ∀ (l : List α) (acc : List α),
      List.Perm (l.foldl (fun acc x => insertStable keep x acc) acc) (l ++ acc) by
    simpa using h l []
  intro l
  induction l with
  | nil => intro acc; simp
  | cons x rest ih =>
    intro acc
    refine (ih (insertStable keep x acc)).trans ?_
    have h1 : List.Perm (rest ++ insertStable keep x acc) (rest ++ x :: acc) :=
      List.Perm.append_left rest (insertStable_perm keep x acc)
    exact h1.trans List.perm_middle

/-- Membership transfer through `sortStable`. -/
theorem mem_sortStable {α : Type} {keep : α → α → Bool} {l : List α} {x : α}
    (h : x ∈ sortStable keep l) : x ∈ l :=
  (sortStable_perm keep l).mem_iff.mp h

/-- Insertion preserves sortedness for a total transitive relation when
the keep test decides exactly that relation. -/
theorem insertStable_pairwise {α : Type} (le : α → α → Prop) [DecidableRel le]
    (htot : ∀ a b, le a b ∨ le b a) (htrans : ∀ a b c, le a b → le b c → le a c)
    (x : α) : ∀ l : List α, List.Pairwise le l →
    List.Pairwise le (insertStable (fun a b => decide (le a b)) x l) := by
  intro l
  induction l with
  | nil => intro _; simp [insertStable]
  | cons y ys ih =>
    intro hp
    rcases List.pairwise_cons.mp hp with ⟨hy, hys⟩
    simp only [insertStable]
    by_cases h : le y x
    · simp only [decide_eq_true_eq, h, if_true]
      refine List.pairwise_cons.mpr ⟨?_, ih hys⟩
      intro z hz
      rcases (insertStable_perm (fun a b => decide (le a b)) x ys).mem_iff.mp hz with hz2
      rcases List.mem_cons.mp hz2 with rfl | hz3
      · exact h
      · exact hy z hz3
    · have hxy : le x y := (htot y x).resolve_left h
      simp only [decide_eq_true_eq, h, if_false]
      refine List.pairwise_cons.mpr ⟨?_, hp⟩
      intro z hz
      rcases List.mem_cons.mp hz with rfl | hz2
      · exact hxy
      · exact htrans x y z hxy (hy z hz2)

/-- `sortStable` sorts with respect to a total transitive relation. -/
theorem sortStable_pairwise {α : Type} (le : α → α → Prop) [DecidableRel le]
    (htot : ∀ a b, le a b ∨ le b a) (htrans : ∀ a b c, le a b → le b c → le a c)
    (l : List α) :
    List.Pairwise le (sortStable (fun a b => decide (le a b)) l) := by
  suffices h : ∀ (l acc : List α), List.Pairwise le acc →
      List.Pairwise le (l.foldl (fun acc x => insertStable (fun a b => decide (le a b)) x acc) acc) by
    exact h l [] (by simp)
  intro l
  induction l with
  | nil => intro acc hacc; exact hacc
  | cons x rest ih =>
    intro acc hacc
    exact ih _ (insertStable_pairwise le htot htrans x acc hacc)

/-- `rndHE` returns the floor or the floor plus one. -/
theorem rndHE_eq_floor_or (q : ℚ) : rndHE q = Int.floor q ∨ rndHE q = Int.floor q + 1 := by
  unfold rndHE
  split_ifs <;> simp

/-- `pyround` of a value in `[0, 1]` stays in `[0, 1]`. -/
theorem pyround3_mem_unit {q : ℚ} (h0 : 0 ≤ q) (h1 : q ≤ 1) :
    0 ≤ pyround q 3 ∧ pyround q 3 ≤ 1 := by
  unfold pyround
  have hx0 : (0 : ℚ) ≤ q * 10 ^ 3 := by positivity
  have hx1 : q * 10 ^ 3 ≤ 1000 := by nlinarith
  have hfl0 : (0 : ℤ) ≤ Int.floor (q * 10 ^ 3) := Int.le_floor.mpr (by exact_mod_cast hx0)
  have hfl1 : Int.floor (q * 10 ^ 3) ≤ 1000 := by
    have h2 : Int.floor (q * 10 ^ 3) ≤ Int.floor ((1000 : ℚ)) := Int.floor_mono hx1
    simpa using h2
  have hpos : (0 : ℚ) < 10 ^ 3 := by norm_num
  constructor
  · rcases rndHE_eq_floor_or (q * 10 ^ 3) with h | h
    · rw [h]
      exact div_nonneg (by exact_mod_cast hfl0) (le_of_lt hpos)
    · rw [h]
      have h4 : (0 : ℤ) ≤ Int.floor (q * 10 ^ 3) + 1 := by omega
      exact div_nonneg (by exact_mod_cast h4) (le_of_lt hpos)
  · rcases rndHE_eq_floor_or (q * 10 ^ 3) with h | h
    · rw [h, div_le_one hpos]
      exact_mod_cast le_trans hfl1 (by norm_num)
    · by_cases hb : Int.floor (q * 10 ^ 3) ≤ 999
      · rw [h, div_le_one hpos]
        have h3 : Int.floor (q * 10 ^ 3) + 1 ≤ 1000 := by omega
        calc ((Int.floor (q * 10 ^ 3) + 1 : ℤ) : ℚ) ≤ ((1000 : ℤ) : ℚ) := by exact_mod_cast h3
          _ ≤ 10 ^ 3 := by norm_num
      · have hfl : Int.floor (q * 10 ^ 3) = 1000 := by omega
        have hq : q * 10 ^ 3 = 1000 := by
          have hle := Int.floor_le (q * 10 ^ 3)
          rw [hfl] at hle
          push_cast at hle
          linarith
        exfalso
        unfold rndHE at h
        rw [hq] at h
        norm_num at h

end PILIA

namespace PILIA

/-- C1: `explode_block` does not apply the composed affine transform.  On
the repository's own unit test inputs (qa/test_dxf_rotation.py): a block
line (0,0)-(10,0) inserted at (20,0) with rotation 90° explodes to
(20,0)-(30,0) — the rotation is ignored — instead of the test's expected
(20,0)-(20,10); and the nested insert OUTER(100,0) ▸ INNER(0,5) explodes
to (0,5)-(10,5) — the outer translation is never applied to the nested
result — instead of the expected (100,5)-(110,5). -/
theorem C1_explode_block_transform_bug :
    (explode_block rotTestDoc rotTestIns).1 = [⟨⟨20, 0⟩, ⟨30, 0⟩, "0", "LINE"⟩] ∧
    (explode_block rotTestDoc rotTestIns).1 ≠ [⟨⟨20, 0⟩, ⟨20, 10⟩, "0", "LINE"⟩] ∧
    (explode_block nestTestDoc nestTestIns).1 = [⟨⟨0, 5⟩, ⟨10, 5⟩, "0", "LINE"⟩] ∧
    (explode_block nestTestDoc nestTestIns).1 ≠ [⟨⟨100, 5⟩, ⟨110, 5⟩, "0", "LINE"⟩] := by
  refine ⟨by decide, by decide, by decide, by decide⟩

/-- C2: `SpatialIndex.find_zone` raises `KeyError` instead of returning
the smallest containing region: the constructor appends every valid
polygon to `valid_polys` twice but records metadata only under the second
copy's index, so the containment loop's `self.metadata[idx]` lookup fails
at the first copy (index 0) for any point some polygon contains. -/
theorem C2_find_zone_key_error :
    sq10.containsPt 5 5 = true ∧
    (buildIndex [(sq10, "mb-auxiliar", "region_1")]).metadata = [(1, "mb-auxiliar", "region_1")] ∧
    findZone (buildIndex [(sq10, "mb-auxiliar", "region_1")]) 5 5 = .error (.keyError 0) := by
  refine ⟨by decide, by rfl, by rfl⟩

end PILIA

namespace PILIA

/-- C3 counterexample: a candidate with text score 0.5 and spatial score
0.5 has combined score 0.5 < 0.6, yet the matcher selects it and
produces a region match — there is no `combined ≥ 0.6` gate in
`associate_text_to_regions`. -/
theorem C3_counterexample_no_threshold :
    (bestMatch none [c3cand]).1 = some c3cand ∧
    (bestMatch none [c3cand]).2 = combinedScore none c3cand ∧
    combinedScore none c3cand = 1/2 ∧ (1/2 : ℚ) < 6/10 := by
  refine ⟨by decide, by decide, by decide, by decide⟩

/-- C4 counterexample: the fine-resolution pass admits a valid polygon of
area 0.3 m², below the default `min_area` 0.5 m² that the claim asserts
for every region. -/
theorem C4_counterexample_fine_below_min :
    extractAtResolution [finePoly] "fine" "L" 0 10 1 = [⟨"L_fine_0", 3/10, true, "fine"⟩] ∧
    (3/10 : ℚ) < 1/2 := by
  refine ⟨by decide, by decide⟩

/-- C5 counterexample: `force_close_polygons` adds an AUTO_CLOSE/BRIDGE
segment starting at (0,0), an endpoint of degree 2 (not dangling) at
4-decimal rounding — the gap closer of region extraction has no
degree-1 restriction. -/
theorem C5_counterexample_bridges_degree_two :
    forceClosePolygons fcCex (1/20) = fcCex ++ [fcCexBridge] ∧
    fcCexBridge.layer = "AUTO_CLOSE" ∧ fcCexBridge.etype = "BRIDGE" ∧
    degree4 fcCex fcCexBridge.start = 2 := by
  refine ⟨by decide, by decide, by decide, by decide⟩

/-- C6 counterexample: with a weighted sum of exactly 1 and two sanity
warnings (no error), the scorer returns `1·(1 − 2·0.1) = 0.8`, while the
claimed `×0.9` per warning would give `0.81`. -/
theorem C6_counterexample_two_warnings :
    computeConfidence factorsOne (some (sanityResultOf [.warning, .warning])) = 4/5 ∧
    claimConfidence factorsOne (some (sanityResultOf [.warning, .warning])) = 81/100 ∧
    (4/5 : ℚ) ≠ 81/100 := by
  refine ⟨by decide, by decide, by decide⟩

/-- C7 counterexample: for the target "muro norte" and candidate
"muro sur" the semantic matcher's fuzzy strategy returns the plain
sequence ratio 2/3, while the claimed ratio-plus-word-overlap-bonus
formula gives 49/60. -/
theorem C7_counterexample_no_bonus :
    matchSM "muro norte" ["muro sur"] (1/2) = [("muro sur", 2/3, "fuzzy")] ∧
    claimFuzzyScore "muro norte" "muro sur" = 49/60 ∧
    ((2 : ℚ)/3) ≠ 49/60 := by
  refine ⟨by decide, by decide, by decide⟩

/-- C8 counterexample: on two chained 9 mm segments with the default 1 cm
tolerance, the first snap pass yields one 6 mm segment and the second
pass deletes it — `snap_vertices` is not idempotent. -/
theorem C8_counterexample_not_idempotent :
    snapVertices snapCex (1/100) = [⟨⟨3/500, 0⟩, ⟨3/250, 0⟩, "L", "LINE"⟩] ∧
    snapVertices (snapVertices snapCex (1/100)) (1/100) = [] ∧
    snapVertices (snapVertices snapCex (1/100)) (1/100) ≠ snapVertices snapCex (1/100) := by
  refine ⟨by decide, by decide, by decide⟩

/-- C9: `associate_text_to_regions` raises `AttributeError` instead of
producing the unmatched record: with dataclass items (the repository's
own test test_spatial_logic.py) `item.get('description')` fails, and with
dict items (the `/extract` route) `item.description` fails inside
`find_matching_labels`; region extraction on an empty segment list does
return `[]` cleanly. -/
theorem C9_matcher_raises_attribute_error :
    associateTextToRegions [itemPatio] labelsPatio (1/2) (fun _ => none) (fun _ r => r.area)
      = .error (.attributeError "ExcelItem object has no attribute get") ∧
    associateTextToRegions [itemPatioDict] labelsPatio (1/2) (fun _ => none) (fun _ r => r.area)
      = .error (.attributeError "dict object has no attribute description") ∧
    ∀ polygonized : List PolyCand, extractRegionsShapely [] polygonized = [] := by
  refine ⟨by rfl, by rfl, fun p => rfl⟩

end PILIA

namespace PILIA

theorem clamp01_mem_unit (q : ℚ) : 0 ≤ clamp01 q ∧ clamp01 q ≤ 1 := by
  unfold clamp01
  constructor
  · exact le_max_left 0 (min 1 q)
  · exact max_le (by norm_num) (min_le_left 1 q)

theorem severityValue_warning (i : Severity) :
    decide (severityValue i = "warning") = decide (i = Severity.warning) := by
  cases i <;> rfl

/-- C6 (amended): `compute_confidence` multiplies the weighted factor sum
(text 20%, spatial 25%, geometry 20%, expected 25%, source 10%) by 0.5
when the sanity result contains an error and by `1 − 0.1·warning_count`
(not `0.9^warning_count`) when it does not, then clamps to `[0, 1]` and
rounds to 3 decimals; the returned confidence always lies in `[0, 1]`. -/
theorem C6_amended (f : Factors) (issues : List Severity) :
    (0 ≤ computeConfidence f (some (sanityResultOf issues)) ∧
      computeConfidence f (some (sanityResultOf issues)) ≤ 1) ∧
    (issues.any (fun i => i = Severity.error) = true →
      computeConfidence f (some (sanityResultOf issues)) =
        pyround (clamp01 ((f.text_match * (20/100) + f.spatial_match * (25/100) +
          f.geometry_quality * (20/100) + f.expected_match * (25/100) +
          f.source_reliability * (10/100)) * (1/2))) 3) ∧
    (issues.any (fun i => i = Severity.error) = false →
      computeConfidence f (some (sanityResultOf issues)) =
        pyround (clamp01 ((f.text_match * (20/100) + f.spatial_match * (25/100) +
          f.geometry_quality * (20/100) + f.expected_match * (25/100) +
          f.source_reliability * (10/100)) *
          (1 - ((issues.filter (fun i => i = Severity.warning)).length : ℚ) * (1/10)))) 3) := by
  refine ⟨?_, ?_, ?_⟩
  · have h := clamp01_mem_unit (
      match some (sanityResultOf issues) with
      | some sr =>
        if !sr.passed then weightedSum f * (1/2)
        else if !sr.issues.isEmpty then
          let warningCount := (sr.issues.filter (fun i => severityValue i = "warning")).length
          if warningCount > 0 then weightedSum f * (1 - (warningCount : ℚ) * (1/10)) else weightedSum f
        else weightedSum f
      | none => weightedSum f)
    exact pyround3_mem_unit h.1 h.2
  · intro herr
    simp only [computeConfidence, sanityResultOf, weightedSum, herr, Bool.not_true,
      Bool.not_false, if_true, if_false]
  · intro herr
    simp only [computeConfidence, sanityResultOf, weightedSum, herr, severityValue_warning,
      Bool.not_true, Bool.not_false, Bool.false_eq_true, if_true, if_false]
    by_cases hemp : issues.isEmpty
    · have h0 : issues = [] := List.isEmpty_iff.mp hemp
      subst h0
      simp
    · simp only [hemp, Bool.not_false, if_true]
      by_cases hc : (List.filter (fun i => decide (i = Severity.warning)) issues).length > 0
      · simp only [hc, if_true]
      · simp only [hc, if_false]
        have h0 : (List.filter (fun i => decide (i = Severity.warning)) issues).length = 0 := by
          omega
        rw [h0]
        norm_num

/-- C6 witness: the amended theorem applied at concrete factors and a
single warning, where the linear penalty coincides with one ×0.9 step. -/
theorem C6_amended_witness :
    computeConfidence factorsOne (some (sanityResultOf [Severity.warning])) =
      pyround (clamp01 ((1 * (20/100) + 1 * (25/100) + 1 * (20/100) + 1 * (25/100) +
        1 * (10/100)) * (1 - ((1 : ℚ)) * (1/10)))) 3 := by
  have h := (C6_amended factorsOne [Severity.warning]).2.2 (by decide)
  simpa using h

end PILIA

namespace PILIA

theorem bmStep_snd_le (e : Option ℚ) (acc : Option Cand × ℚ) (c : Cand) :
    acc.2 ≤ (bmStep e acc c).2 := by
  unfold bmStep
  split
  · exact le_of_lt (by assumption)
  · exact le_refl _

theorem bm_foldl_snd_le (e : Option ℚ) :
    ∀ (cands : List Cand) (acc : Option Cand × ℚ),
      acc.2 ≤ (List.foldl (bmStep e) acc cands).2 := by
  intro cands
  induction cands with
  | nil => intro acc; exact le_refl _
  | cons c rest ih =>
    intro acc
    exact le_trans (bmStep_snd_le e acc c) (ih (bmStep e acc c))

theorem bm_foldl_mem_le (e : Option ℚ) :
    ∀ (cands : List Cand) (acc : Option Cand × ℚ), ∀ c ∈ cands,
      combinedScore e c ≤ (List.foldl (bmStep e) acc cands).2 := by
  intro cands
  induction cands with
  | nil => intro acc c hc; cases hc
  | cons d rest ih =>
    intro acc c hc
    rcases List.mem_cons.mp hc with rfl | hc2
    · refine le_trans ?_ (bm_foldl_snd_le e rest (bmStep e acc c))
      unfold bmStep
      split
      · exact le_refl _
      · exact le_of_not_lt (by assumption)
    · exact ih (bmStep e acc d) c hc2

theorem bm_foldl_fst_val (e : Option ℚ) :
    ∀ (cands : List Cand) (acc : Option Cand × ℚ),
      (∀ c, acc.1 = some c → acc.2 = combinedScore e c) →
      ∀ c, (List.foldl (bmStep e) acc cands).1 = some c →
        (List.foldl (bmStep e) acc cands).2 = combinedScore e c := by
  intro cands
  induction cands with
  | nil => intro acc hacc c hc; exact hacc c hc
  | cons d rest ih =>
    intro acc hacc c hc
    refine ih (bmStep e acc d) ?_ c hc
    intro c2 hc2
    unfold bmStep at hc2 ⊢
    split at hc2
    · simp at hc2
      subst hc2
      split
      · rfl
      · rfl
    · rename_i hlt
      rw [if_neg hlt]
      exact hacc c2 hc2

theorem bm_foldl_some_stays (e : Option ℚ) :
    ∀ (cands : List Cand) (acc : Option Cand × ℚ),
      acc.1.isSome = true → (List.foldl (bmStep e) acc cands).1.isSome = true := by
  intro cands
  induction cands with
  | nil => intro acc h; exact h
  | cons d rest ih =>
    intro acc h
    refine ih (bmStep e acc d) ?_
    unfold bmStep
    split
    · rfl
    · exact h

theorem bm_foldl_isSome (e : Option ℚ) :
    ∀ (cands : List Cand) (s : ℚ),
      (List.foldl (bmStep e) (none, s) cands).1.isSome = true ↔
        ∃ c ∈ cands, s < combinedScore e c := by
  intro cands
  induction cands with
  | nil =>
    intro s
    simp
  | cons d rest ih =>
    intro s
    constructor
    · intro h
      by_cases hd : s < combinedScore e d
      · exact ⟨d, List.mem_cons_self d rest, hd⟩
      · have hstep : bmStep e (none, s) d = (none, s) := by
          unfold bmStep
          rw [if_neg hd]
        rw [List.foldl_cons, hstep] at h
        rcases (ih s).mp h with ⟨c, hc, hlt⟩
        exact ⟨c, List.mem_cons_of_mem d hc, hlt⟩
    · intro ⟨c, hc, hlt⟩
      rw [List.foldl_cons]
      by_cases hd : s < combinedScore e d
      · refine bm_foldl_some_stays e rest _ ?_
        unfold bmStep
        rw [if_pos hd]
        rfl
      · have hstep : bmStep e (none, s) d = (none, s) := by
          unfold bmStep
          rw [if_neg hd]
        rw [hstep]
        rcases List.mem_cons.mp hc with rfl | hc2
        · exact absurd hlt hd
        · exact (ih s).mpr ⟨c, hc2, hlt⟩

/-- C3 (amended): the combined score is exactly
`0.6·text + 0.4·spatial (+0.2 bonus when expected_qty > 0 and
area/expected ∈ [0.8, 1.2])`, and a Match referencing a region is
produced exactly when some candidate has positive combined score — there
is no `≥ 0.6` acceptance gate; the selected candidate realizes the
maximum combined score over all candidates. -/
theorem C3_amended (e : Option ℚ) (cands : List Cand) :
    ((bestMatch e cands).1.isSome = true ↔ ∃ c ∈ cands, 0 < combinedScore e c) ∧
    (∀ c, (bestMatch e cands).1 = some c →
      (bestMatch e cands).2 = combinedScore e c ∧
      ∀ d ∈ cands, combinedScore e d ≤ (bestMatch e cands).2) ∧
    (∀ c : Cand, combinedScore e c =
      c.textScore * (6/10) + c.spatialScore * (4/10) +
      (match e with
       | some ev => if 0 < ev ∧ (8/10 ≤ c.area / ev ∧ c.area / ev ≤ 12/10) then 2/10 else 0
       | none => 0)) := by
  refine ⟨bm_foldl_isSome e cands 0, ?_, ?_⟩
  · intro c hc
    exact ⟨bm_foldl_fst_val e cands (none, 0) (by intro c2 h; cases h) c hc,
      fun d hd => bm_foldl_mem_le e cands (none, 0) d hd⟩
  · intro c
    cases e with
    | none =>
      show combinedScore none c = _
      unfold combinedScore
      ring
    | some ev =>
      show combinedScore (some ev) c = _
      unfold combinedScore
      dsimp only
      by_cases h1 : ev ≠ 0 ∧ 0 < ev
      · rw [if_pos h1]
        by_cases h2 : 8/10 ≤ c.area / ev ∧ c.area / ev ≤ 12/10
        · rw [if_pos h2, if_pos ⟨h1.2, h2⟩]
        · rw [if_neg h2, if_neg (by tauto)]
          ring
      · have h0 : ¬ 0 < ev := by
          by_contra hpos
          exact h1 ⟨ne_of_gt hpos, hpos⟩
        rw [if_neg h1, if_neg (by tauto)]
        ring

/-- C3 witness: the amended theorem applied to one candidate of positive
combined score. -/
theorem C3_amended_witness :
    (bestMatch none [(⟨1, 1, 0⟩ : Cand)]).1.isSome = true :=
  ((C3_amended none [⟨1, 1, 0⟩]).1).mpr ⟨⟨1, 1, 0⟩, by decide, by decide⟩

end PILIA

namespace PILIA

theorem shapely_isValid (segs : List Seg) (polys : List PolyCand) :
    ∀ r ∈ extractRegionsShapely segs polys, r.isValid = true := by
  intro r hr
  unfold extractRegionsShapely at hr
  dsimp only at hr
  split at hr
  · cases hr
  · unfold shapelyFilter at hr
    rcases List.mem_map.mp hr with ⟨p, hp, rfl⟩
    rcases List.mem_filter.mp hp with ⟨_, hcond⟩
    rcases Bool.and_eq_true_iff.mp hcond with ⟨hv, _⟩
    exact hv

/-- C4 (amended): `extract_regions` output does satisfy
`min_area ≤ area ≤ max_area` with valid polygons; but multi-resolution
extraction enforces only its per-band constraints on the pre-rounding
area — coarse requires `area ≥ coarse_threshold` with no upper bound,
medium `∈ [medium_threshold, coarse_threshold)`, and fine
`< medium_threshold` with no lower bound, so fine regions below the 0.5 m²
default are admitted. -/
theorem C4_amended (segs : List Seg) (polys : List PolyCand) (minA maxA : ℚ)
    (cands : List PolyCand) (res layer : String) (mn coarseT mediumT : ℚ) :
    (∀ r ∈ extractRegions segs polys minA maxA,
      minA ≤ r.area ∧ r.area ≤ maxA ∧ r.isValid = true) ∧
    (∀ r ∈ extractAtResolution cands res layer mn coarseT mediumT,
      r.isValid = true ∧ r.resolution = res ∧
      ∃ p ∈ cands, p.isPolygon = true ∧ p.isValid = true ∧ r.area = pyround p.area 4 ∧
        ¬ p.area < mn ∧
        (res = "coarse" → coarseT ≤ p.area) ∧
        (res = "medium" → mediumT ≤ p.area ∧ p.area < coarseT) ∧
        (res = "fine" → p.area < mediumT)) := by
  constructor
  · intro r hr
    unfold extractRegions extractRegionsFilter at hr
    have hr2 := mem_sortStable hr
    rcases List.mem_filter.mp hr2 with ⟨hmem, hcond⟩
    rcases Bool.and_eq_true_iff.mp hcond with ⟨h1, h2⟩
    exact ⟨of_decide_eq_true h1, of_decide_eq_true h2, shapely_isValid segs polys r hmem⟩
  · intro r hr
    unfold extractAtResolution at hr
    refine foldl_proj_inv _ (fun st => st)
      (fun r2 : RegionR => r2.isValid = true ∧ r2.resolution = res ∧
        ∃ p ∈ cands, p.isPolygon = true ∧ p.isValid = true ∧ r2.area = pyround p.area 4 ∧
          ¬ p.area < mn ∧
          (res = "coarse" → coarseT ≤ p.area) ∧
          (res = "medium" → mediumT ≤ p.area ∧ p.area < coarseT) ∧
          (res = "fine" → p.area < mediumT))
      (List.range cands.length) ?_ []
      (by intro r2 h2; cases h2) r hr
    intro st i _ r2 hr2
    dsimp only at hr2
    cases hget : cands.get? i with
    | none => rw [hget] at hr2; exact Or.inl hr2
    | some p =>
      rw [hget] at hr2
      dsimp only at hr2 ⊢
      split_ifs at hr2 with h1 h2 h3 h4 h5
      · exact Or.inl hr2
      · exact Or.inl hr2
      · exact Or.inl hr2
      · exact Or.inl hr2
      · exact Or.inl hr2
      · rcases List.mem_append.mp hr2 with hin | hnew
        · exact Or.inl hin
        · right
          rcases List.mem_singleton.mp hnew with rfl
          simp only [Bool.or_eq_true, Bool.not_eq_true'] at h1
          push_neg at h1
          refine ⟨Bool.ne_false_iff.mp h1.2, rfl, p, List.get?_mem hget,
            Bool.ne_false_iff.mp h1.1, Bool.ne_false_iff.mp h1.2, rfl, h2, ?_, ?_, ?_⟩
          · intro hres
            by_contra hlt
            exact h3 ⟨hres, lt_of_not_le hlt⟩
          · intro hres
            constructor
            · by_contra hlt
              exact h4 ⟨hres, Or.inl (lt_of_not_le hlt)⟩
            · by_contra hge
              exact h4 ⟨hres, Or.inr (le_of_not_lt hge)⟩
          · intro hres
            by_contra hge
            exact h5 ⟨hres, le_of_not_lt hge⟩

/-- C4 witness: the amended theorem applied to a concrete pipeline run
with one region of area 5 m², and to the fine counterexample candidate. -/
theorem C4_amended_witness :
    (1/2 : ℚ) ≤ (5 : ℚ) ∧ (5 : ℚ) ≤ 1000000 ∧
      ((⟨"", 5, true, ""⟩ : RegionR)).isValid = true :=
  (C4_amended witSeg [⟨true, true, 5⟩] (1/2) 1000000 [] "fine" "L" 0 10 1).1
    ⟨"", 5, true, ""⟩ (by decide)

end PILIA

namespace PILIA

/-- C7 (amended): in the semantic matcher's fuzzy strategy the score is
the plain sequence-similarity ratio of the two normalized strings — no
word-overlap bonus is applied (that bonus exists only in the unused
`fuzzy_match_score` helper); fuzzy candidates are returned only with
score ≥ threshold, and the result list is sorted by descending score. -/
theorem C7_amended (target : String) (cands : List String) (thr : ℚ) :
    (∀ e ∈ matchSM target cands thr, e.2.2 = "fuzzy" →
      e.2.1 = ratioOf (normalizeSM target).toList (normalizeSM e.1).toList ∧ thr ≤ e.2.1) ∧
    List.Pairwise (fun x y : String × ℚ × String => y.2.1 ≤ x.2.1) (matchSM target cands thr) := by
  constructor
  · intro e he
    unfold matchSM at he
    have he2 := mem_sortStable he
    refine foldl_proj_inv (smStep (normalizeSM target) (getSynonyms (normalizeSM target)) thr)
      (fun st => st)
      (fun e : String × ℚ × String => e.2.2 = "fuzzy" →
        e.2.1 = ratioOf (normalizeSM target).toList (normalizeSM e.1).toList ∧ thr ≤ e.2.1)
      cands ?_ [] (by intro r h; cases h) e he2
    intro st cand _ r hr
    unfold smStep at hr
    by_cases h1 : normalizeSM target = normalizeSM cand
    · rw [if_pos h1] at hr
      rcases List.mem_append.mp hr with hin | hnew
      · exact Or.inl hin
      · rcases List.mem_singleton.mp hnew with rfl
        refine Or.inr (fun hf => ?_)
        dsimp only at hf
        exact absurd hf (by decide)
    · rw [if_neg h1] at hr
      cases hfind : (getSynonyms (normalizeSM target)).find?
          (fun syn => substrB syn (normalizeSM cand)) with
      | some w =>
        rw [hfind] at hr
        rcases List.mem_append.mp hr with hin | hnew
        · exact Or.inl hin
        · rcases List.mem_singleton.mp hnew with rfl
          refine Or.inr (fun hf => ?_)
          dsimp only at hf
          exact absurd hf (by decide)
      | none =>
        rw [hfind] at hr
        dsimp only at hr
        by_cases h2 : thr ≤ ratioOf (normalizeSM target).toList (normalizeSM cand).toList
        · rw [if_pos h2] at hr
          rcases List.mem_append.mp hr with hin | hnew
          · exact Or.inl hin
          · rcases List.mem_singleton.mp hnew with rfl
            exact Or.inr (fun _ => ⟨rfl, h2⟩)
        · rw [if_neg h2] at hr
          exact Or.inl hr
  · unfold matchSM
    exact sortStable_pairwise (fun x y : String × ℚ × String => y.2.1 ≤ x.2.1)
      (fun a b => le_total b.2.1 a.2.1) (fun a b c hab hbc => le_trans hbc hab) _

/-- C7 witness: the amended theorem applied at the concrete fuzzy match
of "muro norte" against "muro sur". -/
theorem C7_amended_witness :
    (("muro sur", (2 : ℚ)/3, "fuzzy") : String × ℚ × String).2.1 =
      ratioOf (normalizeSM "muro norte").toList (normalizeSM "muro sur").toList ∧
    (1/2 : ℚ) ≤ (("muro sur", (2 : ℚ)/3, "fuzzy") : String × ℚ × String).2.1 :=
  (C7_amended "muro norte" ["muro sur"] (1/2)).1 ("muro sur", 2/3, "fuzzy")
    (by decide) (by decide)

/-- C10: the `segments` field of the `process_dxf_task` response is
exactly the whitelist-filtered (and possibly cap-subsampled) parser
segment list, copied field for field: every returned segment carries the
endpoint coordinates, layer and entity type of a parsed segment
unchanged — no snapping, merging, gap closing or undershoot repair is
applied (`cleanup_geometry` is imported by processing_task.py but never
called). -/
theorem C10_segments_passthrough (parserSegs : List Seg) :
    processSegments parserSegs =
      (capSegments (parserSegs.filter (fun s => isArchitectural s.layer))).map
        (fun s => (⟨⟨s.start.x, s.start.y⟩, ⟨s.stop.x, s.stop.y⟩, s.layer, s.etype⟩ : ASeg)) ∧
    ∀ t ∈ processSegments parserSegs, ∃ s ∈ parserSegs,
      isArchitectural s.layer = true ∧ t.start = s.start ∧ t.stop = s.stop ∧
      t.layer = s.layer ∧ t.etype = s.etype := by
  have hcap : ∀ (l : List Seg), ∀ s ∈ capSegments l, s ∈ l := by
    intro l s hs
    unfold capSegments at hs
    split at hs
    · refine foldl_proj_inv _ (fun st => st) (fun s : Seg => s ∈ l)
        (List.range l.length) ?_ [] (by intro r h; cases h) s hs
      intro st i _ r hr
      dsimp only at hr
      cases hget : l.get? i with
      | none => rw [hget] at hr; exact Or.inl hr
      | some sg =>
        rw [hget] at hr
        dsimp only at hr
        split_ifs at hr with h1 h2
        · exact Or.inl hr
        · rcases List.mem_append.mp hr with hin | hnew
          · exact Or.inl hin
          · rcases List.mem_singleton.mp hnew with rfl
            exact Or.inr (List.get?_mem hget)
        · exact Or.inl hr
    · exact hs
  constructor
  · unfold processSegments
    rw [List.map_map]
    rfl
  · intro t ht
    unfold processSegments at ht
    rw [List.map_map] at ht
    rcases List.mem_map.mp ht with ⟨u, hu, rfl⟩
    have hu2 := hcap _ u hu
    rcases List.mem_filter.mp hu2 with ⟨humem, harch⟩
    exact ⟨u, humem, harch, rfl, rfl, rfl, rfl⟩

/-- C10 witness: the passthrough theorem applied to a one-segment parse
on an architectural layer. -/
theorem C10_segments_passthrough_witness :
    ∃ s ∈ witSeg, isArchitectural s.layer = true ∧
      (⟨⟨0, 0⟩, ⟨1, 0⟩, "a-arq-muro", "LINE"⟩ : ASeg).start = s.start ∧
      (⟨⟨0, 0⟩, ⟨1, 0⟩, "a-arq-muro", "LINE"⟩ : ASeg).stop = s.stop ∧
      (⟨⟨0, 0⟩, ⟨1, 0⟩, "a-arq-muro", "LINE"⟩ : ASeg).layer = s.layer ∧
      (⟨⟨0, 0⟩, ⟨1, 0⟩, "a-arq-muro", "LINE"⟩ : ASeg).etype = s.etype :=
  (C10_segments_passthrough witSeg).2 ⟨⟨0, 0⟩, ⟨1, 0⟩, "a-arq-muro", "LINE"⟩ (by decide)

end PILIA

namespace PILIA

theorem validNeighbors_spec (points : List Pt) (lm : List ((ℚ × ℚ) × ℚ))
    (pairs : List ((ℚ × ℚ) × (ℚ × ℚ))) (cellSize tolerance : ℚ) (p1 : Pt) :
    ∀ dp ∈ validNeighbors points lm pairs cellSize tolerance p1,
      dp.2 ∈ points ∧ 0 < distSq p1 dp.2 ∧
      sqrtLe (distSq p1 dp.2) (max (lmGet lm p1 tolerance) (lmGet lm dp.2 tolerance)) = true ∧
      pairs.contains (sortedPair (rkey p1) (rkey dp.2)) = false ∧
      dp.1 = distSq p1 dp.2 := by
  intro dp hdp
  unfold validNeighbors at hdp
  dsimp only at hdp
  rcases List.mem_map.mp hdp with ⟨p2, hp2, rfl⟩
  rcases List.mem_filter.mp hp2 with ⟨hp2a, hcond⟩
  rcases List.mem_filter.mp hp2a with ⟨hp2mem, _⟩
  refine ⟨hp2mem, ?_⟩
  split_ifs at hcond with h1 h2 h3
  exact ⟨h3.1, h3.2, by simpa using hcond, rfl⟩

theorem sorted_head_filter_lt {α : Type} (f : α → ℚ) (x : α) (s : List α)
    (h : List.Pairwise (fun a b => f a ≤ f b) (x :: s)) :
    (x :: s).filter (fun e => decide (f e < f x)) = [] := by
  rw [List.filter_eq_nil_iff]
  intro e he
  rcases List.mem_cons.mp he with rfl | he2
  · simp
  · have hle := (List.pairwise_cons.mp h).1 e he2
    simp only [decide_eq_true_eq]
    exact not_lt.mpr hle

theorem pairwise_filter_lt_take2 {α : Type} (f : α → ℚ) :
    ∀ (s : List α), List.Pairwise (fun a b => f a ≤ f b) s → ∀ dp ∈ s.take 2,
      (s.filter (fun e => decide (f e < f dp))).length ≤ 1 := by
  intro s hpw dp hdp
  cases s with
  | nil => cases hdp
  | cons x t =>
    cases t with
    | nil =>
      have ht : (x :: ([] : List α)).take 2 = [x] := rfl
      rw [ht] at hdp
      rcases List.mem_singleton.mp hdp with rfl
      rw [sorted_head_filter_lt f dp [] hpw]
      simp
    | cons b t2 =>
      have ht : (x :: b :: t2).take 2 = [x, b] := rfl
      rw [ht] at hdp
      rcases List.mem_cons.mp hdp with rfl | hdp2
      · rw [sorted_head_filter_lt f dp (b :: t2) hpw]
        simp
      · rcases List.mem_singleton.mp hdp2 with rfl
        rw [List.filter_cons]
        rw [sorted_head_filter_lt f dp t2 (List.pairwise_cons.mp hpw).2]
        split_ifs <;> simp

theorem filter_lt_of_take2 (l : List (ℚ × Pt)) (dp : ℚ × Pt)
    (hdp : dp ∈ (sortStable (fun a b => decide (a.1 ≤ b.1)) l).take 2) :
    (l.filter (fun e => decide (e.1 < dp.1))).length ≤ 1 := by
  have hperm := sortStable_perm (fun (a b : ℚ × Pt) => decide (a.1 ≤ b.1)) l
  have hpw : List.Pairwise (fun (a b : ℚ × Pt) => a.1 ≤ b.1)
      (sortStable (fun (a b : ℚ × Pt) => decide (a.1 ≤ b.1)) l) :=
    sortStable_pairwise (fun (a b : ℚ × Pt) => a.1 ≤ b.1)
      (fun a b => le_total a.1 b.1) (fun a b c h1 h2 => le_trans h1 h2) l
  rw [← (hperm.filter (fun e => decide (e.1 < dp.1))).length_eq]
  exact pairwise_filter_lt_take2 Prod.fst _ hpw dp hdp

theorem addEndpoint_nodup (l : List Pt) (p : Pt)
    (h : List.Pairwise (fun a b => rkey a ≠ rkey b) l) :
    List.Pairwise (fun a b => rkey a ≠ rkey b) (addEndpoint l p) := by
  unfold addEndpoint
  split_ifs with hany
  · exact h
  · rw [List.pairwise_append]
    refine ⟨h, List.pairwise_singleton _ _, ?_⟩
    intro a ha b hb
    rcases List.mem_singleton.mp hb with rfl
    intro he
    exact hany (List.any_eq_true.mpr ⟨a, ha, decide_eq_true he⟩)

theorem fcEndpoints_nodup (segs : List Seg) : (fcEndpoints segs).Nodup := by
  have h : ∀ (ss : List Seg) (l : List Pt),
      List.Pairwise (fun a b => rkey a ≠ rkey b) l →
      List.Pairwise (fun a b => rkey a ≠ rkey b)
        (ss.foldl (fun l2 s => addEndpoint (addEndpoint l2 s.start) s.stop) l) := by
    intro ss
    induction ss with
    | nil => intro l hl; exact hl
    | cons s rest ih =>
      intro l hl
      rw [List.foldl_cons]
      exact ih _ (addEndpoint_nodup _ _ (addEndpoint_nodup _ _ hl))
  have h2 := h segs [] List.Pairwise.nil
  exact h2.imp fun hne he => hne (congrArg rkey he)

theorem fcInner_count (p2 p1 : Pt) :
    ∀ (dps : List (ℚ × Pt)) (st2 : List ((ℚ × ℚ) × (ℚ × ℚ)) × List Seg),
      ((dps.foldl (fcInnerStep p2) st2).2.filter (fun b => decide (b.start = p1))).length ≤
        (st2.2.filter (fun b => decide (b.start = p1))).length +
          (if p2 = p1 then dps.length else 0) := by
  intro dps
  induction dps with
  | nil =>
    intro st2
    simp
  | cons dp rest ih =>
    intro st2
    rw [List.foldl_cons]
    refine le_trans (ih (fcInnerStep p2 st2 dp)) ?_
    have hstep : (((fcInnerStep p2 st2 dp).2).filter (fun b => decide (b.start = p1))).length ≤
        (st2.2.filter (fun b => decide (b.start = p1))).length + (if p2 = p1 then 1 else 0) := by
      unfold fcInnerStep
      dsimp only
      by_cases hcont :
          st2.1.contains (sortedPair (p2.x, p2.y) (dp.2.x, dp.2.y)) = true
      · rw [if_pos hcont]
        exact Nat.le_add_right _ _
      · rw [if_neg hcont]
        dsimp only
        rw [List.filter_append, List.length_append]
        by_cases hp : p2 = p1
        · rw [if_pos hp]
          have h1 : ((([⟨p2, dp.2, "AUTO_CLOSE", "BRIDGE"⟩] : List Seg)).filter
              (fun b => decide (b.start = p1))).length ≤ 1 :=
            List.length_filter_le _ _
          exact Nat.add_le_add_left h1 _
        · rw [if_neg hp]
          have h1 : (([⟨p2, dp.2, "AUTO_CLOSE", "BRIDGE"⟩] : List Seg).filter
              (fun b => decide (b.start = p1))) = [] := by
            simp [hp]
          rw [h1]
          simp
    by_cases hp : p2 = p1
    · simp only [if_pos hp] at hstep ⊢
      simp only [List.length_cons]
      omega
    · simp only [if_neg hp] at hstep ⊢
      omega

theorem fcOuter_count (points : List Pt) (lm : List ((ℚ × ℚ) × ℚ))
    (pairs : List ((ℚ × ℚ) × (ℚ × ℚ))) (cellSize tolerance : ℚ) (p1 : Pt) :
    ∀ (ps : List Pt) (st : List ((ℚ × ℚ) × (ℚ × ℚ)) × List Seg),
      (((ps.foldl (fcOuterStep points lm pairs cellSize tolerance) st).2).filter
        (fun b => decide (b.start = p1))).length ≤
      (st.2.filter (fun b => decide (b.start = p1))).length + 2 * ps.count p1 := by
  intro ps
  induction ps with
  | nil =>
    intro st
    simp
  | cons p2 rest ih =>
    intro st
    rw [List.foldl_cons]
    refine le_trans (ih (fcOuterStep points lm pairs cellSize tolerance st p2)) ?_
    have hstep : (((fcOuterStep points lm pairs cellSize tolerance st p2).2).filter
        (fun b => decide (b.start = p1))).length ≤
        (st.2.filter (fun b => decide (b.start = p1))).length +
          (if p2 = p1 then 2 else 0) := by
      unfold fcOuterStep
      dsimp only
      refine le_trans (fcInner_count p2 p1 _ st) ?_
      by_cases hp : p2 = p1
      · simp only [if_pos hp, List.length_take]
        omega
      · simp only [if_neg hp]
        exact le_rfl
    by_cases hp : p2 = p1
    · subst hp
      rw [if_pos rfl] at hstep
      rw [List.count_cons_self]
      omega
    · rw [if_neg hp] at hstep
      rw [List.count_cons_of_ne (fun he => hp he.symm)]
      omega

/-- C5 (amended): the gap closer of region extraction
(`force_close_polygons`) adds bridging segments between endpoints of any
degree — the degree-1 (dangling) restriction of the spec exists only in
`close_small_gaps`, whose bridges are tagged GAP_CLOSE.  Every added
segment joins two existing endpoints at positive distance within the
effective tolerance (the max of the two endpoints' layer-specific
tolerances), over a rounded edge that did not already exist, and carries
layer "AUTO_CLOSE" and entity_type "BRIDGE"; moreover each bridge's
partner is among the two closest valid neighbors of its start endpoint
(at most one valid neighbor lies strictly closer), and at most two
bridges start at any one endpoint. -/
theorem C5_amended (segs : List Seg) (tol : ℚ) (hne : segs ≠ []) :
    ∃ bridges, forceClosePolygons segs tol = segs ++ bridges ∧
      (∀ b ∈ bridges,
        b.layer = "AUTO_CLOSE" ∧ b.etype = "BRIDGE" ∧
        b.start ∈ fcEndpoints segs ∧ b.stop ∈ fcEndpoints segs ∧
        0 < distSq b.start b.stop ∧
        sqrtLe (distSq b.start b.stop)
          (max (lmGet (layerMapOf segs tol) b.start tol)
               (lmGet (layerMapOf segs tol) b.stop tol)) = true ∧
        (existingPairs segs).contains (sortedPair (rkey b.start) (rkey b.stop)) = false ∧
        ((validNeighbors (fcEndpoints segs) (layerMapOf segs tol) (existingPairs segs)
            (maxTolOf (layerMapOf segs tol) tol) tol b.start).filter
          (fun dp => decide (dp.1 < distSq b.start b.stop))).length ≤ 1) ∧
      (∀ p : Pt, (bridges.filter (fun b => decide (b.start = p))).length ≤ 2) := by
  unfold forceClosePolygons
  rw [if_neg (fun h => hne (List.isEmpty_iff.mp h))]
  dsimp only
  refine ⟨_, rfl, ?_, ?_⟩
  · refine foldl_proj_inv
      (fcOuterStep (fcEndpoints segs) (layerMapOf segs tol) (existingPairs segs)
        (maxTolOf (layerMapOf segs tol) tol) tol)
      (fun st => st.2)
      (fun b : Seg => b.layer = "AUTO_CLOSE" ∧ b.etype = "BRIDGE" ∧
        b.start ∈ fcEndpoints segs ∧ b.stop ∈ fcEndpoints segs ∧
        0 < distSq b.start b.stop ∧
        sqrtLe (distSq b.start b.stop)
          (max (lmGet (layerMapOf segs tol) b.start tol)
               (lmGet (layerMapOf segs tol) b.stop tol)) = true ∧
        (existingPairs segs).contains (sortedPair (rkey b.start) (rkey b.stop)) = false ∧
        ((validNeighbors (fcEndpoints segs) (layerMapOf segs tol) (existingPairs segs)
            (maxTolOf (layerMapOf segs tol) tol) tol b.start).filter
          (fun dp => decide (dp.1 < distSq b.start b.stop))).length ≤ 1)
      (fcEndpoints segs) ?_ ([], []) (by intro b hb; cases hb)
    intro st p1 hp1 b hb
    unfold fcOuterStep at hb
    refine foldl_proj_inv (fcInnerStep p1) (fun st2 => st2.2)
      (fun b2 : Seg => b2 ∈ st.2 ∨
        (b2.layer = "AUTO_CLOSE" ∧ b2.etype = "BRIDGE" ∧
          b2.start ∈ fcEndpoints segs ∧ b2.stop ∈ fcEndpoints segs ∧
          0 < distSq b2.start b2.stop ∧
          sqrtLe (distSq b2.start b2.stop)
            (max (lmGet (layerMapOf segs tol) b2.start tol)
                 (lmGet (layerMapOf segs tol) b2.stop tol)) = true ∧
          (existingPairs segs).contains (sortedPair (rkey b2.start) (rkey b2.stop)) = false ∧
          ((validNeighbors (fcEndpoints segs) (layerMapOf segs tol) (existingPairs segs)
              (maxTolOf (layerMapOf segs tol) tol) tol b2.start).filter
            (fun dp => decide (dp.1 < distSq b2.start b2.stop))).length ≤ 1))
      ((sortStable (fun a b => decide (a.1 ≤ b.1))
        (validNeighbors (fcEndpoints segs) (layerMapOf segs tol) (existingPairs segs)
          (maxTolOf (layerMapOf segs tol) tol) tol p1)).take 2) ?_ st
      (fun b2 hb2 => Or.inl hb2) b hb
    intro st2 dp hdp b2 hb2
    unfold fcInnerStep at hb2
    dsimp only at hb2 ⊢
    split_ifs at hb2 with hcont
    · exact Or.inl hb2
    · rcases List.mem_append.mp hb2 with hin | hnew
      · exact Or.inl hin
      · rcases List.mem_singleton.mp hnew with rfl
        refine Or.inr (Or.inr ?_)
        have hdp2 := List.take_subset 2 _ hdp
        have hdp3 := mem_sortStable hdp2
        have hspec := validNeighbors_spec (fcEndpoints segs) (layerMapOf segs tol)
          (existingPairs segs) (maxTolOf (layerMapOf segs tol) tol) tol p1 dp hdp3
        have h9 := filter_lt_of_take2 _ dp hdp
        rw [hspec.2.2.2.2] at h9
        exact ⟨rfl, rfl, hp1, hspec.1, hspec.2.1, hspec.2.2.1, hspec.2.2.2.1, h9⟩
  · intro p
    have hb := fcOuter_count (fcEndpoints segs) (layerMapOf segs tol) (existingPairs segs)
      (maxTolOf (layerMapOf segs tol) tol) tol p (fcEndpoints segs) ([], [])
    have hc := List.nodup_iff_count_le_one.mp (fcEndpoints_nodup segs) p
    simp only [List.filter_nil, List.length_nil] at hb
    omega

/-- C5 witness: the amended theorem applied at the concrete degree-2
counterexample input with tolerance 5 cm. -/
theorem C5_amended_witness :
    ∃ bridges, forceClosePolygons fcCex (1/20) = fcCex ++ bridges ∧
      (∀ b ∈ bridges,
        b.layer = "AUTO_CLOSE" ∧ b.etype = "BRIDGE" ∧
        b.start ∈ fcEndpoints fcCex ∧ b.stop ∈ fcEndpoints fcCex ∧
        0 < distSq b.start b.stop ∧
        sqrtLe (distSq b.start b.stop)
          (max (lmGet (layerMapOf fcCex (1/20)) b.start (1/20))
               (lmGet (layerMapOf fcCex (1/20)) b.stop (1/20))) = true ∧
        (existingPairs fcCex).contains (sortedPair (rkey b.start) (rkey b.stop)) = false ∧
        ((validNeighbors (fcEndpoints fcCex) (layerMapOf fcCex (1/20)) (existingPairs fcCex)
            (maxTolOf (layerMapOf fcCex (1/20)) (1/20)) (1/20) b.start).filter
          (fun dp => decide (dp.1 < distSq b.start b.stop))).length ≤ 1) ∧
      (∀ p : Pt, (bridges.filter (fun b => decide (b.start = p))).length ≤ 2) :=
  C5_amended fcCex (1/20) (by decide)

end PILIA

namespace PILIA

theorem get?_set_gen {α : Type} (l : List α) (m n : ℕ) (v : α) :
    (l.set m v).get? n = if m = n then (l.get? n).map (fun _ => v) else l.get? n := by
  induction l generalizing m n with
  | nil => cases m <;> cases n <;> simp
  | cons a rest ih =>
    cases m with
    | zero => cases n <;> simp
    | succ m2 =>
      cases n with
      | zero => simp
      | succ n2 =>
        simp only [List.set, List.get?]
        rw [ih m2 n2]
        by_cases h : m2 = n2
        · subst h; simp
        · rw [if_neg h, if_neg (by omega)]

theorem foldl_set_get (v : Option ℕ) :
    ∀ (js : List ℕ) (l : List (Option ℕ)) (i : ℕ),
      (js.foldl (fun l2 j => l2.set j v) l).get? i =
        if i ∈ js then (l.get? i).map (fun _ => v) else l.get? i := by
  intro js
  induction js with
  | nil => intro l i; simp
  | cons j rest ih =>
    intro l i
    rw [List.foldl_cons, ih (l.set j v) i]
    by_cases hmem : i ∈ rest
    · rw [if_pos hmem, if_pos (List.mem_cons_of_mem j hmem)]
      rw [get?_set_gen]
      by_cases hj : j = i
      · rw [if_pos hj]
        cases l.get? i <;> simp
      · rw [if_neg hj]
    · rw [if_neg hmem, get?_set_gen]
      by_cases hj : j = i
      · rw [if_pos hj, if_pos (by rw [hj]; exact List.mem_cons_self i rest)]
      · rw [if_neg hj, if_neg (by intro h; rcases List.mem_cons.mp h with h2 | h2; exact hj h2.symm; exact hmem h2)]

theorem foldl_set_length (v : Option ℕ) :
    ∀ (js : List ℕ) (l : List (Option ℕ)),
      (js.foldl (fun l2 j => l2.set j v) l).length = l.length := by
  intro js
  induction js with
  | nil => intro l; rfl
  | cons j rest ih => intro l; rw [List.foldl_cons, ih, List.length_set]

theorem foldl_const_sum (c : ℚ) (f : ℕ → ℚ) :
    ∀ (l : List ℕ), (∀ j ∈ l, f j = c) → ∀ s : ℚ,
      l.foldl (fun s2 j => s2 + f j) s = s + l.length * c := by
  intro l
  induction l with
  | nil => intro _ s; simp
  | cons j rest ih =>
    intro h s
    rw [List.foldl_cons, ih (fun x hx => h x (List.mem_cons_of_mem j hx)) (s + f j),
      h j (List.mem_cons_self j rest)]
    simp only [List.length_cons]
    push_cast
    ring

theorem foldl_range_congr {α : Type} :
    ∀ (m : ℕ) (f g : α → ℕ → α) (acc : α), (∀ a k, k < m → f a k = g a k) →
      (List.range m).foldl f acc = (List.range m).foldl g acc := by
  intro m
  induction m with
  | zero => intro f g acc _; rfl
  | succ m2 ih =>
    intro f g acc h
    rw [List.range_succ, List.foldl_append, List.foldl_append,
      ih f g acc (fun a k hk => h a k (Nat.lt_succ_of_lt hk))]
    simp only [List.foldl_cons, List.foldl_nil]
    exact h _ m2 (Nat.lt_succ_self m2)

theorem foldl_range_append_getD {α : Type} (d : α) :
    ∀ (l : List α), (List.range l.length).foldl (fun acc k => acc ++ [l.getD k d]) [] = l := by
  intro l
  induction l using List.reverseRecOn with
  | nil => rfl
  | append_singleton l2 a ih =>
    rw [List.length_append, List.length_singleton, List.range_succ, List.foldl_append]
    have h1 : (List.range l2.length).foldl (fun acc k => acc ++ [(l2 ++ [a]).getD k d]) [] = l2 := by
      rw [foldl_range_congr l2.length _ (fun acc k => acc ++ [l2.getD k d]) []
        (fun acc k hk => by
          unfold List.getD
          rw [List.get?_append hk])]
      exact ih
    rw [h1]
    simp only [List.foldl_cons, List.foldl_nil]
    unfold List.getD
    rw [List.get?_concat_length]
    rfl

theorem allPoints_length : ∀ segs : List Seg, (allPoints segs).length = 2 * segs.length := by
  intro segs
  induction segs with
  | nil => rfl
  | cons s rest ih => simp [allPoints, ih]; ring

theorem allPoints_get : ∀ (segs : List Seg) (k : ℕ) (s : Seg), segs.get? k = some s →
    (allPoints segs).get? (2 * k) = some s.start ∧
    (allPoints segs).get? (2 * k + 1) = some s.stop := by
  intro segs
  induction segs with
  | nil => intro k s h; cases k <;> cases h
  | cons t rest ih =>
    intro k s h
    cases k with
    | zero =>
      cases h
      exact ⟨rfl, rfl⟩
    | succ k2 =>
      have h2 : 2 * (k2 + 1) = (2 * k2) + 1 + 1 := by ring
      rw [h2]
      simp only [allPoints, List.get?_cons_succ]
      simp only [List.get?_cons_succ] at h
      exact ih k2 s h

end PILIA

namespace PILIA

theorem snapNearby_char (pts : List Pt) (tol gs : ℚ) (htol : 0 ≤ tol)
    (hsep : ∀ p ∈ pts, ∀ q ∈ pts, p ≠ q → sqrtLe (distSq p q) tol = false)
    (i : ℕ) (pi : Pt) (hi : pts.get? i = some pi) (j : ℕ) :
    ((match pts.get? j with
      | none => false
      | some pj => cellNear gs pi pj && sqrtLe (distSq pi pj) tol) = true) ↔
      pts.get? j = some pi := by
  constructor
  · intro h
    cases hj : pts.get? j with
    | none => rw [hj] at h; cases h
    | some pj =>
      rw [hj] at h
      rcases Bool.and_eq_true_iff.mp h with ⟨_, hsq⟩
      by_cases heq : pj = pi
      · rw [heq]
      · have hf := hsep pi (List.get?_mem hi) pj (List.get?_mem hj) (fun he => heq he.symm)
        rw [hf] at hsq
        cases hsq
  · intro h
    rw [h]
    apply Bool.and_eq_true_iff.mpr
    refine ⟨?_, ?_⟩
    · unfold cellNear
      simp
    · unfold sqrtLe
      apply Bool.and_eq_true_iff.mpr
      refine ⟨decide_eq_true htol, decide_eq_true ?_⟩
      have hz : distSq pi pi = 0 := by unfold distSq; ring
      rw [hz]
      positivity

theorem snapStep_good (pts : List Pt) (tol : ℚ) (htol : 0 ≤ tol)
    (hsep : ∀ p ∈ pts, ∀ q ∈ pts, p ≠ q → sqrtLe (distSq p q) tol = false)
    (st : ClusterSt) (hst : SnapInv pts st) (i : ℕ) :
    SnapInv pts (snapStep pts tol (tol * 2) st i) ∧
    (∀ j c, st.p2c.get? j = some (some c) →
      ∃ c2, (snapStep pts tol (tol * 2) st i).p2c.get? j = some (some c2)) ∧
    (i < pts.length → ∃ c2, (snapStep pts tol (tol * 2) st i).p2c.get? i = some (some c2)) := by
  unfold snapStep
  cases hget : st.p2c.get? i with
  | some oc =>
    cases oc with
    | some c =>
      exact ⟨hst, fun j c2 h => ⟨c2, h⟩, fun _ => ⟨c, hget⟩⟩
    | none =>
      cases hpt : pts.get? i with
      | none =>
        refine ⟨hst, fun j c2 h => ⟨c2, h⟩, fun hlt => ?_⟩
        exact absurd (List.get?_eq_none.mp hpt) (not_le.mpr hlt)
      | some pi =>
        dsimp only
        have hchar := snapNearby_char pts tol (tol * 2) htol hsep i pi hpt
        have hmem : ∀ j, j ∈ (List.range pts.length).filter (fun j =>
            match pts.get? j with
            | none => false
            | some pj => cellNear (tol * 2) pi pj && sqrtLe (distSq pi pj) tol) ↔
            pts.get? j = some pi := by
          intro j
          rw [List.mem_filter]
          constructor
          · intro h2
            exact (hchar j).mp h2.2
          · intro h2
            refine ⟨List.mem_range.mpr ?_, (hchar j).mpr h2⟩
            exact (List.get?_eq_some.mp h2).1
        set nearby := (List.range pts.length).filter (fun j =>
          match pts.get? j with
          | none => false
          | some pj => cellNear (tol * 2) pi pj && sqrtLe (distSq pi pj) tol) with hnb
        have hinb : i ∈ nearby := (hmem i).mpr hpt
        have hmnz : ((nearby.length : ℚ)) ≠ 0 := by
          have : 0 < nearby.length := List.length_pos.mpr (List.ne_nil_of_mem hinb)
          exact_mod_cast Nat.pos_iff_ne_zero.mp this
        have hcx : (nearby.foldl (fun s j => s + (((pts.get? j).map Pt.x).getD 0)) 0) /
            ((nearby.length : ℚ)) = pi.x := by
          rw [foldl_const_sum pi.x _ nearby (fun j hj => by rw [(hmem j).mp hj]; rfl) 0]
          rw [zero_add, mul_comm]
          exact mul_div_cancel_right₀ pi.x hmnz
        have hcy : (nearby.foldl (fun s j => s + (((pts.get? j).map Pt.y).getD 0)) 0) /
            ((nearby.length : ℚ)) = pi.y := by
          rw [foldl_const_sum pi.y _ nearby (fun j hj => by rw [(hmem j).mp hj]; rfl) 0]
          rw [zero_add, mul_comm]
          exact mul_div_cancel_right₀ pi.y hmnz
        have hcent : (⟨(nearby.foldl (fun s j => s + (((pts.get? j).map Pt.x).getD 0)) 0) /
            ((nearby.length : ℚ)),
            (nearby.foldl (fun s j => s + (((pts.get? j).map Pt.y).getD 0)) 0) /
            ((nearby.length : ℚ))⟩ : Pt) = pi := by
          rw [hcx, hcy]
        refine ⟨⟨?_, ?_⟩, ?_, ?_⟩
        · rw [foldl_set_length]
          exact hst.1
        · intro i2 c2 h2
          rw [foldl_set_get] at h2
          by_cases hin : i2 ∈ nearby
          · rw [if_pos hin] at h2
            have hp2 : pts.get? i2 = some pi := (hmem i2).mp hin
            rcases Option.map_eq_some'.mp h2 with ⟨old, _, hval⟩
            refine ⟨pi, hp2, ?_⟩
            have hc2 : c2 = st.cents.length := by
              have := hval.symm
              injection this
            rw [hc2, List.get?_concat_length, hcent]
          · rw [if_neg hin] at h2
            rcases hst.2 i2 c2 h2 with ⟨p, hp, hcget⟩
            refine ⟨p, hp, ?_⟩
            rw [List.get?_append]
            · exact hcget
            · exact (List.get?_eq_some.mp hcget).1
        · intro j c2 h2
          refine ⟨if j ∈ nearby then st.cents.length else c2, ?_⟩
          rw [foldl_set_get]
          by_cases hin : j ∈ nearby
          · rw [if_pos hin, if_pos hin, h2]
            rfl
          · rw [if_neg hin, if_neg hin]
            exact h2
        · intro _
          refine ⟨st.cents.length, ?_⟩
          rw [foldl_set_get, if_pos hinb, hget]
          rfl
  | none =>
    cases hpt : pts.get? i with
    | none =>
      refine ⟨hst, fun j c2 h => ⟨c2, h⟩, fun hlt => ?_⟩
      exact absurd (List.get?_eq_none.mp hpt) (not_le.mpr hlt)
    | some pi =>
      have h1 : i < st.p2c.length := by
        rw [hst.1]
        exact (List.get?_eq_some.mp hpt).1
      exact absurd h1 (not_lt.mpr (List.get?_eq_none.mp hget))

end PILIA

namespace PILIA

/-- Folding the clustering step over any index list preserves the snap
invariant, never unassigns a point, and assigns every processed in-range
index. -/
theorem snap_fold_good (pts : List Pt) (tol : ℚ) (htol : 0 ≤ tol)
    (hsep : ∀ p ∈ pts, ∀ q ∈ pts, p ≠ q → sqrtLe (distSq p q) tol = false) :
    ∀ (js : List ℕ) (st : ClusterSt), SnapInv pts st →
      SnapInv pts (js.foldl (snapStep pts tol (tol * 2)) st) ∧
      (∀ j c, st.p2c.get? j = some (some c) →
        ∃ c2, (js.foldl (snapStep pts tol (tol * 2)) st).p2c.get? j = some (some c2)) ∧
      (∀ j ∈ js, j < pts.length →
        ∃ c2, (js.foldl (snapStep pts tol (tol * 2)) st).p2c.get? j = some (some c2)) := by
  intro js
  induction js with
  | nil =>
    intro st hst
    exact ⟨hst, fun j c h => ⟨c, h⟩, fun j hj => absurd hj (List.not_mem_nil j)⟩
  | cons i rest ih =>
    intro st hst
    rw [List.foldl_cons]
    obtain ⟨h1, h2, h3⟩ := snapStep_good pts tol htol hsep st hst i
    obtain ⟨g1, g2, g3⟩ := ih (snapStep pts tol (tol * 2) st i) h1
    refine ⟨g1, ?_, ?_⟩
    · intro j c h
      obtain ⟨c2, hc2⟩ := h2 j c h
      exact g2 j c2 hc2
    · intro j hj hlt
      rcases List.mem_cons.mp hj with hj2 | hj2
      · subst hj2
        obtain ⟨c2, hc2⟩ := h3 hlt
        exact g2 j c2 hc2
      · exact g3 j hj2 hlt

/-- When all distinct points are separated beyond the tolerance, the full
clustering pass satisfies the snap invariant and assigns every in-range
point index to some cluster. -/
theorem snapClusters_good (pts : List Pt) (tol : ℚ) (htol : 0 ≤ tol)
    (hsep : ∀ p ∈ pts, ∀ q ∈ pts, p ≠ q → sqrtLe (distSq p q) tol = false) :
    SnapInv pts (snapClusters pts tol) ∧
    ∀ j, j < pts.length → ∃ c, (snapClusters pts tol).p2c.get? j = some (some c) := by
  have hinv0 : SnapInv pts ⟨List.replicate pts.length none, []⟩ := by
    constructor
    · exact List.length_replicate _ _
    · intro i c h
      exact absurd (List.eq_of_mem_replicate (List.get?_mem h)) (Option.some_ne_none c)
  have H := snap_fold_good pts tol htol hsep (List.range pts.length)
    ⟨List.replicate pts.length none, []⟩ hinv0
  unfold snapClusters
  exact ⟨H.1, fun j hj => H.2.2 j (List.mem_range.mpr hj) hj⟩

/-- C8 (amended claim): the snap pass is NOT idempotent in general (see
the counterexample); it is the identity — hence idempotent — on inputs
whose distinct endpoints are all separated by more than the tolerance and
whose segments have distinct endpoints: with a nonnegative tolerance,
every point then forms its own cluster whose centroid is the point
itself, each segment keeps both endpoints, and the output equals the
input bit for bit, so a second pass returns the same list. -/
theorem C8_amended (segs : List Seg) (tol : ℚ) (htol : 0 ≤ tol)
    (hsep : ∀ p ∈ allPoints segs, ∀ q ∈ allPoints segs, p ≠ q →
      sqrtLe (distSq p q) tol = false)
    (hnz : ∀ s ∈ segs, s.start ≠ s.stop) :
    snapVertices segs tol = segs ∧
    snapVertices (snapVertices segs tol) tol = snapVertices segs tol := by
  have hmain : snapVertices segs tol = segs := by
    unfold snapVertices
    by_cases hemp : segs.isEmpty = true
    · rw [if_pos hemp]
    · rw [if_neg hemp]
      dsimp only
      obtain ⟨hinv, hall⟩ := snapClusters_good (allPoints segs) tol htol hsep
      rw [foldl_range_congr segs.length _
        (fun acc k => acc ++ [segs.getD k (⟨⟨0, 0⟩, ⟨0, 0⟩, "", ""⟩ : Seg)]) []
        (fun acc k hk => by
          cases hs : segs.get? k with
          | none => exact absurd (List.get?_eq_none.mp hs) (not_le.mpr hk)
          | some s =>
            obtain ⟨h2k, h2k1⟩ := allPoints_get segs k s hs
            obtain ⟨c1, hc1⟩ := hall (2 * k) (by rw [allPoints_length]; omega)
            obtain ⟨c2, hc2⟩ := hall (2 * k + 1) (by rw [allPoints_length]; omega)
            obtain ⟨p1, hp1, hcent1⟩ := hinv.2 (2 * k) c1 hc1
            obtain ⟨p2, hp2, hcent2⟩ := hinv.2 (2 * k + 1) c2 hc2
            rw [h2k] at hp1
            rw [h2k1] at hp2
            injection hp1 with hp1e
            injection hp2 with hp2e
            subst hp1e
            subst hp2e
            have hne : c1 ≠ c2 := by
              intro he
              subst he
              rw [hcent1] at hcent2
              injection hcent2 with he2
              exact hnz s (List.get?_mem hs) he2
            dsimp only
            rw [hc1, hc2]
            simp only [Option.getD_some]
            rw [if_pos hne, hcent1, hcent2]
            simp only [Option.getD_some]
            unfold List.getD
            rw [hs]
            rfl),
        foldl_range_append_getD]
  exact ⟨hmain, by rw [hmain]; exact hmain⟩

/-- C8 witness: the amended theorem applied to one concrete unit segment
with tolerance 1 cm; the snap pass returns it unchanged, so the second
pass does too. -/
theorem C8_amended_witness :
    snapVertices snapWitSeg (1/100) = snapWitSeg ∧
    snapVertices (snapVertices snapWitSeg (1/100)) (1/100) =
      snapVertices snapWitSeg (1/100) :=
  C8_amended snapWitSeg (1/100) (by decide) (by decide) (by decide)

end PILIA
